import Mathlib

/-!
Verification development for the Telegram → Cortex-M connector
(`connector.py`).  The Python source is shallowly embedded: pure helpers
become Lean functions, the stateful parts (the `HTMLParser` subclass, the
shared `_pending` / `_send_queue` / `_known_chats` state manipulated by
`ws_loop`, `_receiver` and `handle_message`) become explicit state-passing
step functions, and the cooperative-concurrency interleaving becomes a
trace of events fed to the step function.
-/

set_option maxHeartbeats 1000000

/-! ## `html.escape` (quote=True), as used by the converter -/

/-- One character of Python's `html.escape(s)` with `quote=True`. -/
def htmlEscChar (c : Char) : List Char :=
  if c = '&' then ['&', 'a', 'm', 'p', ';']
  else if c = '<' then ['&', 'l', 't', ';']
  else if c = '>' then ['&', 'g', 't', ';']
  else if c = '"' then ['&', 'q', 'u', 'o', 't', ';']
  else if c = '\'' then ['&', '#', 'x', '2', '7', ';']
  else [c]

/-- Python `html.escape(s, quote=True)`.  The chained `str.replace` calls in
CPython are equivalent to this character-wise map because no replacement
string contains a character that a later replace rewrites. -/
def escapeHtml (s : String) : String :=
  String.mk (s.data.flatMap htmlEscChar)

/-! ## `_render_table` -/

/-- One pass of the inner loop of `_render_table`'s width computation:
`for i, cell in enumerate(row): if i >= len(col_widths): append else max`. -/
def updRow : List Nat → List String → List Nat
  | ws, [] => ws
  | [], c :: cs => c.length :: updRow [] cs
  | w :: ws, c :: cs => max w c.length :: updRow ws cs

/-- `col_widths` after the double loop over `self._table_rows`. -/
def computeColWidths (rows : List (List String)) : List Nat :=
  rows.foldl updRow []

/-- Python `str.ljust`: pad on the right with spaces up to width `w`. -/
def ljust (s : String) (w : Nat) : String :=
  s ++ String.mk (List.replicate (w - s.length) ' ')

/-- The padded cells of one row:
`[cell.ljust(col_widths[i]) if i < len(col_widths) else cell ...]`. -/
def padRow (ws : List Nat) (row : List String) : List String :=
  row.enum.map (fun ic => if ic.1 < ws.length then ljust ic.2 (ws.getD ic.1 0) else ic.2)

/-- `"| " + " | ".join(cells) + " |"` for one row. -/
def rowLine (ws : List Nat) (row : List String) : String :=
  "| " ++ String.intercalate " | " (padRow ws row) ++ " |"

def dashes (w : Nat) : String := String.mk (List.replicate w '-')

/-- The separator emitted after the first row: `f"|-{sep}-|"` with
`sep = "-+-".join("-" * w for w in col_widths)`. -/
def sepLine (ws : List Nat) : String :=
  "|-" ++ String.intercalate "-+-" (ws.map dashes) ++ "-|"

/-- The `lines` list built by `_render_table`'s second loop (the separator is
appended right after the first row, `ri == 0`). -/
def tableLines (rows : List (List String)) : List String :=
  match rows with
  | [] => []
  | r0 :: rest =>
    let ws := computeColWidths (r0 :: rest)
    rowLine ws r0 :: sepLine ws :: rest.map (rowLine ws)

/-- `_render_table`: empty table renders `""`, otherwise the joined grid is
HTML-escaped once more and wrapped in `<pre>…</pre>\n\n`. -/
def renderTable (rows : List (List String)) : String :=
  match rows with
  | [] => ""
  | _ :: _ => "<pre>" ++ escapeHtml (String.intercalate "\n" (tableLines rows)) ++ "</pre>\n\n"

/-! ## The `_TelegramHTMLConverter` event machine

`HTMLParser.feed` turns the markdown-it HTML into a stream of
start-tag / end-tag / data events; the converter is a fold over that
stream.  The `self._out` list of emitted strings is refined into a list
of fragments so that the emitted tags are directly visible; concatenating
`fragStr` over the list reproduces the exact strings appended by the
source (`"<b>"`, `"</b>\n\n"`, `f'<a href="{escape(href)}">'`, …). -/

inductive Frag where
  | tagOpen (t : String)
  | tagClose (t : String) (suffix : String)
  | anchorOpen (href : String)
  | txt (s : String)
deriving DecidableEq, Repr

/-- The exact string the Python code appends for each fragment. -/
def fragStr : Frag → String
  | .tagOpen t => "<" ++ t ++ ">"
  | .tagClose t suf => "</" ++ t ++ ">" ++ suf
  | .anchorOpen h => "<a href=" ++ "\"" ++ escapeHtml h ++ "\"" ++ ">"
  | .txt s => s

/-- What `self._out.append(self._render_table())` contributes, as fragments
(the concatenation of `fragStr` over this list equals `renderTable rows`). -/
def renderFrags (rows : List (List String)) : List Frag :=
  match rows with
  | [] => [.txt ""]
  | _ :: _ => [.tagOpen "pre",
               .txt (escapeHtml (String.intercalate "\n" (tableLines rows))),
               .tagClose "pre" "\n\n"]

inductive HEvent where
  | startTag (tag : String) (attrs : List (String × String))
  | endTag (tag : String)
  | textData (s : String)
deriving DecidableEq, Repr

/-- The converter's mutable state: `_out`, `_stack` (top of the Python list is
the head here), `_in_table`, `_table_rows`, `_current_row`, `_current_cell`. -/
structure CState where
  out : List Frag
  stack : List String
  inTable : Bool
  tableRows : List (List String)
  currentRow : List String
  currentCell : List String
deriving DecidableEq, Repr

def initConv : CState := ⟨[], [], false, [], [], []⟩

def headerTags : List String := ["h1", "h2", "h3", "h4", "h5", "h6"]

/-- `dict(attrs)` lookup: for duplicate keys Python keeps the last value. -/
def dictLookup (attrs : List (String × String)) (k : String) : Option String :=
  attrs.reverse.lookup k

/-- The fragments `handle_starttag` appends, given the stack *below* the tag
just pushed (`self._stack[:-1]`). -/
def startOut (tag : String) (attrs : List (String × String)) (below : List String) : List Frag :=
  if tag ∈ headerTags then [.tagOpen "b"]
  else if tag = "strong" ∨ tag = "b" then [.tagOpen "b"]
  else if tag = "em" ∨ tag = "i" then [.tagOpen "i"]
  else if tag = "u" then [.tagOpen "u"]
  else if tag = "s" ∨ tag = "del" ∨ tag = "strike" then [.tagOpen "s"]
  else if tag = "code" ∧ ¬ ("pre" ∈ below) then [.tagOpen "code"]
  else if tag = "pre" then [.tagOpen "pre"]
  else if tag = "a" ∧ (dictLookup attrs "href").isSome then
    [.anchorOpen ((dictLookup attrs "href").getD "")]
  else if tag = "blockquote" then [.tagOpen "blockquote"]
  else if tag = "br" then [.txt "\n"]
  else []

/-- `handle_starttag`: push the tag, emit, and enter table mode on `table`. -/
def startStep (st : CState) (tag : String) (attrs : List (String × String)) : CState :=
  let st1 : CState := { st with stack := tag :: st.stack,
                                out := st.out ++ startOut tag attrs st.stack }
  if tag = "table" then { st1 with inTable := true, tableRows := [] } else st1

/-- The fragments `handle_endtag` appends for non-table tags, given the stack
*after* the conditional pop (`self._stack` at that point). -/
def endOut (tag : String) (stkAfter : List String) : List Frag :=
  if tag ∈ headerTags then [.tagClose "b" "\n\n"]
  else if tag = "strong" ∨ tag = "b" then [.tagClose "b" ""]
  else if tag = "em" ∨ tag = "i" then [.tagClose "i" ""]
  else if tag = "u" then [.tagClose "u" ""]
  else if tag = "s" ∨ tag = "del" ∨ tag = "strike" then [.tagClose "s" ""]
  else if tag = "code" ∧ ¬ ("pre" ∈ stkAfter) then [.tagClose "code" ""]
  else if tag = "pre" then [.tagClose "pre" "\n"]
  else if tag = "a" then [.tagClose "a" ""]
  else if tag = "blockquote" then [.tagClose "blockquote" "\n"]
  else if tag = "p" then [.txt "\n\n"]
  else []

/-- Python `str.strip()`: drop leading and trailing whitespace. -/
def pyStrip (s : String) : String :=
  String.mk (((s.data.dropWhile Char.isWhitespace).reverse.dropWhile Char.isWhitespace).reverse)

/-- `"".join(self._current_cell).strip()` -/
def joinCell (cs : List String) : String := pyStrip (String.join cs)

/-- `handle_endtag`: conditional pop, then the elif chain (the `th`/`td`,
`tr` and `table` cases mutate the table accumulator instead of emitting). -/
def endStep (st : CState) (tag : String) : CState :=
  let st1 : CState :=
    if st.stack.head? = some tag then { st with stack := st.stack.tail } else st
  if tag = "th" ∨ tag = "td" then
    { st1 with currentRow := st1.currentRow ++ [joinCell st1.currentCell], currentCell := [] }
  else if tag = "tr" then
    { st1 with tableRows := st1.tableRows ++ [st1.currentRow], currentRow := [] }
  else if tag = "table" then
    { st1 with inTable := false, out := st1.out ++ renderFrags st1.tableRows }
  else
    { st1 with out := st1.out ++ endOut tag st1.stack }

/-- `handle_data`: buffer into the current cell while inside a `th`/`td`,
emit escaped text outside a table, drop otherwise. -/
def dataStep (st : CState) (s : String) : CState :=
  if st.inTable ∧ (st.stack.head? = some "th" ∨ st.stack.head? = some "td") then
    { st with currentCell := st.currentCell ++ [escapeHtml s] }
  else if ¬ st.inTable then
    { st with out := st.out ++ [.txt (escapeHtml s)] }
  else st

def stepEv (st : CState) (e : HEvent) : CState :=
  match e with
  | .startTag t a => startStep st t a
  | .endTag t => endStep st t
  | .textData s => dataStep st s

def csteps (evs : List HEvent) (st : CState) : CState := evs.foldl stepEv st

def convertEvents (evs : List HEvent) : CState := csteps evs initConv

/-- `re.sub(r"\n{3,}", "\n\n", text)`: `k` counts the consecutive newlines
just emitted. -/
def collapseAux : List Char → Nat → List Char
  | [], _ => []
  | c :: cs, k =>
    if c = '\n' then
      if 2 ≤ k then collapseAux cs k else '\n' :: collapseAux cs (k + 1)
    else c :: collapseAux cs 0

/-- `result()`: join the emitted pieces, collapse newline runs, strip. -/
def convResult (st : CState) : String :=
  pyStrip (String.mk (collapseAux (String.join (st.out.map fragStr)).data 0))

/-- `_md_to_telegram_html`, with the external markdown-it parse
(`_md.render` + `HTMLParser` tokenization) abstracted as `mdParse`. -/
def mdToTelegramHtml (mdParse : String → List HEvent) (t : String) : String :=
  convResult (convertEvents (mdParse t))

/-! ## Well-nested input model for the converter

`HTMLParser.feed` on markup text produces a well-nested event stream:
elements open and close in matching, properly nested pairs, and the HTML
void elements appear as lone start tags.  This forest is the claim's
"valid rich-text input" domain. -/

mutual
inductive HNode where
  | text (s : String)
  | elem (tag : String) (attrs : List (String × String)) (children : HForest)
  | voidTag (tag : String) (attrs : List (String × String))
inductive HForest where
  | nil
  | cons (n : HNode) (ns : HForest)
end

/-- The HTML5 void elements (no end tag ever arrives for these). -/
def voidList : List String :=
  ["area", "base", "br", "col", "embed", "hr", "img", "input",
   "link", "meta", "param", "source", "track", "wbr"]

mutual
def eventsOfNode : HNode → List HEvent
  | .text s => [.textData s]
  | .elem t a cs => .startTag t a :: (eventsOfForest cs ++ [.endTag t])
  | .voidTag t a => [.startTag t a]
def eventsOfForest : HForest → List HEvent
  | .nil => []
  | .cons n ns => eventsOfNode n ++ eventsOfForest ns
end

mutual
/-- The tags a subtree leaves on the converter's stack (head = top): void
tags are pushed and never popped, and an element whose children leave
garbage fails its own pop and stays on the stack beneath that garbage. -/
def garbageOfNode : HNode → List String
  | .text _ => []
  | .voidTag t _ => [t]
  | .elem t _ cs =>
    if garbageOfForest cs = [] then [] else garbageOfForest cs ++ [t]
def garbageOfForest : HForest → List String
  | .nil => []
  | .cons n ns => garbageOfForest ns ++ garbageOfNode n
end

mutual
/-- Well-nested HTML with standard void elements — the formalization of the
claim's "valid rich-text input". -/
def wellFormedNode : HNode → Bool
  | .text _ => true
  | .voidTag t _ => voidList.contains t
  | .elem t _ cs => (!(voidList.contains t)) && wellFormedForest cs
def wellFormedForest : HForest → Bool
  | .nil => true
  | .cons n ns => wellFormedNode n && wellFormedForest ns
end

mutual
/-- The strengthened validity under which the converter's output is
balanced: additionally every `a` element carries an `href` attribute, and
no `code` element's children leave an unpopped `pre` on the stack. -/
def goodNode : HNode → Bool
  | .text _ => true
  | .voidTag t _ => voidList.contains t
  | .elem t attrs cs =>
    (!(voidList.contains t)) &&
    (if t = "a" then (dictLookup attrs "href").isSome else true) &&
    (if t = "code" then !((garbageOfForest cs).contains "pre") else true) &&
    goodForest cs
def goodForest : HForest → Bool
  | .nil => true
  | .cons n ns => goodNode n && goodForest ns
end

/-! ## Balance of the emitted fragment stream -/

/-- Run the fragment stream against a stack of currently open tags; `none`
means a close tag arrived with no matching open tag. -/
def checkBal : List Frag → List String → Option (List String)
  | [], stk => some stk
  | .txt _ :: fs, stk => checkBal fs stk
  | .tagOpen t :: fs, stk => checkBal fs (t :: stk)
  | .anchorOpen _ :: fs, stk => checkBal fs ("a" :: stk)
  | .tagClose t _ :: fs, stk =>
    match stk with
    | [] => none
    | t2 :: stk2 => if t = t2 then checkBal fs stk2 else none

/-- The tag set Telegram accepts, as the spec lists it. -/
def acceptedTags : List String := ["b", "i", "u", "s", "code", "pre", "a", "blockquote"]

def fragOk : Frag → Bool
  | .tagOpen t => acceptedTags.contains t
  | .tagClose t _ => acceptedTags.contains t
  | .anchorOpen _ => true
  | .txt _ => true

/-- Dyck (balanced) fragment streams. -/
inductive Dyck : List Frag → Prop where
  | nil : Dyck []
  | txtCons (s : String) {fs : List Frag} : Dyck fs → Dyck (Frag.txt s :: fs)
  | wrap (t suf : String) {inner rest : List Frag} :
      Dyck inner → Dyck rest →
      Dyck (Frag.tagOpen t :: inner ++ Frag.tagClose t suf :: rest)
  | wrapA (h suf : String) {inner rest : List Frag} :
      Dyck inner → Dyck rest →
      Dyck (Frag.anchorOpen h :: inner ++ Frag.tagClose "a" suf :: rest)

/-! ## Envelope codec

`_build_inbound_event` serializes a fixed-shape CloudEvent with
`json.dumps` (default separators `", "` and `": "`, insertion-ordered
keys); `_receiver` parses frames with `json.loads` and reads fields with
`dict.get`.  JSON values are modelled by `Json`; the serializer writes
string escapes only for `"` and `\` — faithful to `json.dumps` on
printable-ASCII content, which is the domain the round-trip claim is
stated for (floats and `\uXXXX` escapes are outside the model). -/

inductive Json where
  | str (s : String)
  | num (n : Int)
  | bool (b : Bool)
  | null
  | arr (xs : List Json)
  | obj (kvs : List (String × Json))

/-- `json.dumps` escaping of one string character (printable-ASCII
fragment of the real escaper). -/
def jsonEscChar (c : Char) : List Char :=
  if c = '"' then ['\\', '"']
  else if c = '\\' then ['\\', '\\']
  else [c]

def jsonEscChars : List Char → List Char
  | [] => []
  | c :: cs => jsonEscChar c ++ jsonEscChars cs

/-- A serialized JSON string literal. -/
def jstrChars (s : String) : List Char :=
  '"' :: jsonEscChars s.data ++ ['"']

mutual
/-- `json.dumps` with its default separators. -/
def dumpsChars : Json → List Char
  | .str s => jstrChars s
  | .num n => (toString n).data
  | .bool b => if b then ['t', 'r', 'u', 'e'] else ['f', 'a', 'l', 's', 'e']
  | .null => ['n', 'u', 'l', 'l']
  | .obj kvs => '{' :: dumpsFields kvs ++ ['}']
  | .arr xs => '[' :: dumpsItems xs ++ [']']
def dumpsFields : List (String × Json) → List Char
  | [] => []
  | [(k, v)] => jstrChars k ++ ':' :: ' ' :: dumpsChars v
  | (k, v) :: kv2 :: rest =>
    jstrChars k ++ ':' :: ' ' :: dumpsChars v ++ ',' :: ' ' :: dumpsFields (kv2 :: rest)
def dumpsItems : List Json → List Char
  | [] => []
  | [v] => dumpsChars v
  | v :: v2 :: rest => dumpsChars v ++ ',' :: ' ' :: dumpsItems (v2 :: rest)
end

def skipWs : List Char → List Char
  | [] => []
  | c :: cs => if c = ' ' ∨ c = '\t' ∨ c = '\n' ∨ c = '\r' then skipWs cs else c :: cs

/-- Parse the body of a JSON string literal (after the opening quote),
returning the decoded characters and the suffix after the closing quote. -/
def parseStrChars : List Char → Option (List Char × List Char)
  | [] => none
  | c :: cs =>
    if c = '"' then some ([], cs)
    else if c = '\\' then
      match cs with
      | [] => none
      | e :: cs2 =>
        let dec : Option Char :=
          if e = '"' then some '"'
          else if e = '\\' then some '\\'
          else if e = '/' then some '/'
          else if e = 'n' then some '\n'
          else if e = 't' then some '\t'
          else if e = 'r' then some '\r'
          else if e = 'b' then some (Char.ofNat 8)
          else if e = 'f' then some (Char.ofNat 12)
          else none
        match dec with
        | some d => (parseStrChars cs2).map (fun r => (d :: r.1, r.2))
        | none => none
    else (parseStrChars cs).map (fun r => (c :: r.1, r.2))

def digitsVal (l : List Char) : Nat :=
  l.foldl (fun a c => a * 10 + (c.toNat - 48)) 0

def parseNatNum (cs : List Char) : Option (Nat × List Char) :=
  let ds := cs.takeWhile (fun c => c.isDigit)
  if ds = [] then none else some (digitsVal ds, cs.drop ds.length)

def parseNumber (cs : List Char) : Option (Json × List Char) :=
  match cs with
  | '-' :: rest => (parseNatNum rest).map (fun r => (Json.num (-(r.1 : Int)), r.2))
  | _ => (parseNatNum cs).map (fun r => (Json.num (r.1 : Int), r.2))

mutual
/-- Recursive-descent JSON value parser (fuel-indexed; `jsonLoads` always
supplies more fuel than the input length, which is more than it consumes). -/
def parseValue : Nat → List Char → Option (Json × List Char)
  | 0, _ => none
  | f + 1, cs =>
    match skipWs cs with
    | '"' :: cs2 => (parseStrChars cs2).map (fun r => (Json.str (String.mk r.1), r.2))
    | '{' :: cs2 =>
      match skipWs cs2 with
      | '}' :: r => some (.obj [], r)
      | cs3 => parseFields f cs3
    | '[' :: cs2 =>
      match skipWs cs2 with
      | ']' :: r => some (.arr [], r)
      | cs3 => parseItems f cs3
    | 't' :: 'r' :: 'u' :: 'e' :: r => some (.bool true, r)
    | 'f' :: 'a' :: 'l' :: 's' :: 'e' :: r => some (.bool false, r)
    | 'n' :: 'u' :: 'l' :: 'l' :: r => some (.null, r)
    | cs2 => parseNumber cs2
def parseFields : Nat → List Char → Option (Json × List Char)
  | 0, _ => none
  | f + 1, cs =>
    match skipWs cs with
    | '"' :: cs2 =>
      match parseStrChars cs2 with
      | none => none
      | some (k, r1) =>
        match skipWs r1 with
        | ':' :: r2 =>
          match parseValue f r2 with
          | none => none
          | some (v, r3) =>
            match skipWs r3 with
            | ',' :: r4 =>
              match parseFields f r4 with
              | some (.obj kvs, r5) => some (.obj ((String.mk k, v) :: kvs), r5)
              | _ => none
            | '}' :: r4 => some (.obj [(String.mk k, v)], r4)
            | _ => none
        | _ => none
    | _ => none
def parseItems : Nat → List Char → Option (Json × List Char)
  | 0, _ => none
  | f + 1, cs =>
    match parseValue f cs with
    | none => none
    | some (v, r1) =>
      match skipWs r1 with
      | ',' :: r2 =>
        match parseItems f r2 with
        | some (.arr xs, r3) => some (.arr (v :: xs), r3)
        | _ => none
      | ']' :: r2 => some (.arr [v], r2)
      | _ => none
end

/-- `json.loads`: parse one value, allow trailing whitespace only. -/
def jsonLoads (s : String) : Option Json :=
  match parseValue (s.length + 1) s.data with
  | some (v, rest) => if skipWs rest = [] then some v else none
  | none => none

/-- `dict.get(k)` on a parsed JSON object (later duplicate keys win, as in
a Python dict built from parsed pairs). -/
def getField (j : Json) (k : String) : Option Json :=
  match j with
  | .obj kvs => kvs.reverse.lookup k
  | _ => none

/-- Printable ASCII — the domain on which the serializer model is faithful
to `json.dumps` and on which the round-trip claim is stated. -/
def printableStr (s : String) : Bool :=
  s.data.all (fun c => decide (32 ≤ c.toNat) && decide (c.toNat ≤ 126))

/-- The CloudEvent built by `_build_inbound_event` (its fresh `uuid4` and
`datetime.now` values are the `uid` / `time` parameters; `CONNECTOR_ID`
and `SOURCE` come from the configuration). -/
def inboundJson (connectorId source uid time conversationId roomId text : String) : Json :=
  .obj [("specversion", .str "1.0"),
        ("type", .str "assistant.message.inbound"),
        ("source", .str source),
        ("id", .str uid),
        ("time", .str time),
        ("datacontenttype", .str "application/json"),
        ("data", .obj [("connectorId", .str connectorId),
                       ("conversationId", .str conversationId),
                       ("roomId", .str roomId),
                       ("text", .str text)])]

/-- `_build_inbound_event`: `json.dumps` of the CloudEvent dict. -/
def buildInboundEvent (connectorId source uid time conversationId roomId text : String) : String :=
  String.mk (dumpsChars (inboundJson connectorId source uid time conversationId roomId text))

/-! ## The connection machine

The shared module state (`_pending`, `_send_queue`, `_known_chats`, the
supervisor's `backoff`, and whether `_bot` has been set) and the atomic
slices of the coroutines that mutate it:

* `Ev.register c f p` — the `handle_message` lines
  `_pending[conversation_id] = (fut, payload); await _send_queue.put(payload)`
  (the fresh `asyncio.Future` is identified by the number `f`);
* `Ev.reply c t` — `_receiver` handling one `assistant.message.outbound`
  frame with `conversationId = c` and text `t`;
* `Ev.timeout c` — the `asyncio.TimeoutError` branch of `handle_message`:
  `_pending.pop(conversation_id, None)` plus the fixed notice;
* `Ev.connect` — a successful `websockets.connect`: backoff reset and the
  drain + re-queue resync (no await between the two loops);
* `Ev.fail` — the `except` branch of `ws_loop`: sleep the current backoff,
  then double it, capped at 60;
* `Ev.send` — `_sender` forwarding the queue head to the socket.

A future is `done` exactly when `set_result` ran: `handle_message` shields
`fut` from the `wait_for` cancellation, so timeouts never complete it, and
the only `set_result` call is in `_receiver` after popping the entry. -/

inductive Ev where
  | register (c : String) (f : Nat) (p : String)
  | reply (c t : String)
  | timeout (c : String)
  | connect
  | fail
  | send
deriving DecidableEq, Repr

inductive Out where
  | resolvedReply (c t : String)
  | notice (c msg : String)
  | unknownConv (c : String)
  | sentRendered (chat : Int) (html : String)
  | sentPlain (chat : Int) (t : String)
  | bcastFail (chat : Int)
  | waitSecs (n : Nat)
deriving DecidableEq, Repr

structure ConnState where
  pending : List (String × Nat × String)
  resolved : List (Nat × String)
  sendQueue : List String
  knownChats : List Int
  backoff : Nat
  botSet : Bool
deriving DecidableEq, Repr

def initConn : ConnState := ⟨[], [], [], [], 2, true⟩

/-- Python dict assignment `_pending[c] = (f, p)`: replace in place if the
key exists (keeping its position), else append. -/
def insertPend (c : String) (f : Nat) (p : String)
    (l : List (String × Nat × String)) : List (String × Nat × String) :=
  if l.any (fun e => e.1 == c) then
    l.map (fun e => if e.1 = c then (c, f, p) else e)
  else l ++ [(c, f, p)]

def lookupPend (l : List (String × Nat × String)) (c : String) : Option (Nat × String) :=
  match l with
  | [] => none
  | (c2, f, p) :: rest => if c2 = c then some (f, p) else lookupPend rest c

/-- Python `_pending.pop(c, None)` / `_pending.pop(c)`: drop the binding. -/
def erasePend (c : String) (l : List (String × Nat × String)) : List (String × Nat × String) :=
  l.filter (fun e => e.1 != c)

/-- The ids of futures on which `set_result` has run (`fut.done()`). -/
def resolvedIds (s : ConnState) : List Nat := s.resolved.map (fun e => e.1)

/-- The payloads re-queued by the resync loop:
`for conv_id, (fut, payload) in list(_pending.items()): if not fut.done(): put_nowait(payload)`. -/
def resyncList (s : ConnState) : List String :=
  (s.pending.filter (fun e => !((resolvedIds s).contains e.2.1))).map (fun e => e.2.2)

/-- `_known_chats.add(chat_id)` (iteration order modelled as insertion order). -/
def insertChat (cid : Int) (l : List Int) : List Int :=
  if l.contains cid then l else l ++ [cid]

/-- The broadcast fan-out of `_receiver`: for each known chat try the
rendered HTML; on failure try the raw text; on failure again only log.
`okR`/`okP` are the success oracles of the two `bot.send_message` calls. -/
def bcastOuts (mdParse : String → List HEvent) (okR okP : Int → Bool)
    (chats : List Int) (t : String) : List Out :=
  chats.map (fun cid =>
    if okR cid then .sentRendered cid (mdToTelegramHtml mdParse t)
    else if okP cid then .sentPlain cid t
    else .bcastFail cid)

def timeoutNotice : String := "⏳ Cortex-M did not respond in time. Please try again."

def step (mdParse : String → List HEvent) (okR okP : Int → Bool)
    (s : ConnState) (e : Ev) : ConnState × List Out :=
  match e with
  | .register c f p =>
    ({ s with pending := insertPend c f p s.pending, sendQueue := s.sendQueue ++ [p] }, [])
  | .reply c t =>
    match lookupPend s.pending c with
    | some (f, _) =>
      if c = "" then (s, [.unknownConv c])
      else
        ({ s with pending := erasePend c s.pending,
                  resolved := if (resolvedIds s).contains f then s.resolved
                              else s.resolved ++ [(f, t)] },
         [.resolvedReply c t])
    | none =>
      if c = "broadcast" ∧ s.botSet then (s, bcastOuts mdParse okR okP s.knownChats t)
      else (s, [.unknownConv c])
  | .timeout c =>
    ({ s with pending := erasePend c s.pending }, [.notice c timeoutNotice])
  | .connect =>
    ({ s with backoff := 2, sendQueue := resyncList s }, [])
  | .fail =>
    ({ s with backoff := min (s.backoff * 2) 60 }, [.waitSecs s.backoff])
  | .send =>
    ({ s with sendQueue := s.sendQueue.drop 1 }, [])

def runEvs (mdParse : String → List HEvent) (okR okP : Int → Bool)
    (s : ConnState) : List Ev → ConnState × List Out
  | [] => (s, [])
  | e :: evs =>
    let r1 := step mdParse okR okP s e
    let r2 := runEvs mdParse okR okP r1.1 evs
    (r2.1, r1.2 ++ r2.2)

def runState (mdParse : String → List HEvent) (okR okP : Int → Bool)
    (tr : List Ev) : ConnState :=
  (runEvs mdParse okR okP initConn tr).1

def regTriples : List Ev → List (String × Nat × String)
  | [] => []
  | .register c f p :: tr => (c, f, p) :: regTriples tr
  | _ :: tr => regTriples tr

/-- Freshness of a trace: each `register` uses a fresh future and a fresh
serialized payload (the payload embeds a fresh `uuid4`). -/
def FreshTrace (tr : List Ev) : Prop :=
  ((regTriples tr).map (fun e => e.2.1)).Nodup ∧
  ((regTriples tr).map (fun e => e.2.2)).Nodup

/-- Truthiness failure of `user.username` or absence from the allowlist:
`not user.username or user.username not in ALLOWED_USERS`. -/
def usernameFails (username : Option String) (allowed : List String) : Bool :=
  match username with
  | none => true
  | some u => u == "" || !(allowed.contains u)

/-- `handle_message`: record the chat, drop empty text, enforce the
allowlist, then build + register + enqueue.  Returns whether an envelope
was registered. -/
def handleMessage (allowedUsers : List String) (connectorId source uid time : String)
    (chatId : Int) (mtext : Option String) (userIdStr : String) (username : Option String)
    (f : Nat) (s : ConnState) : ConnState × Bool :=
  let s1 := { s with knownChats := insertChat chatId s.knownChats }
  let text := pyStrip (mtext.getD "")
  if text = "" then (s1, false)
  else if allowedUsers ≠ [] ∧ ¬ (userIdStr ∈ allowedUsers) ∧
          usernameFails username allowedUsers = true then
    (s1, false)
  else
    let conversationId := toString chatId
    let payload := buildInboundEvent connectorId source uid time
      conversationId (toString chatId) text
    ({ s1 with pending := insertPend conversationId f payload s1.pending,
               sendQueue := s1.sendQueue ++ [payload] }, true)

/-! ## Small derived notions used by the theorems -/

/-- The length of the cell at column `i` of a row (0 when the row is short). -/
def lenAt (row : List String) (i : Nat) : Nat :=
  ((row.get? i).map String.length).getD 0

def pendKeys (l : List (String × Nat × String)) : List String := l.map (fun e => e.1)

def pendFutIds (l : List (String × Nat × String)) : List Nat := l.map (fun e => e.2.1)

def pendPayloads (l : List (String × Nat × String)) : List String := l.map (fun e => e.2.2)

/-- The backoff value after `n` consecutive failures starting from `b`
(`backoff = min(backoff * 2, 60)` applied `n` times). -/
def backoffIter : Nat → Nat → Nat
  | b, 0 => b
  | b, n + 1 => backoffIter (min (b * 2) 60) n

/-- The event stream `HTMLParser.feed` produces for one `<td>` cell. -/
def cellEvents (c : String) : List HEvent :=
  [.startTag "td" [], .textData c, .endTag "td"]

/-- The event stream for one `<tr>` row. -/
def rowEvents (r : List String) : List HEvent :=
  .startTag "tr" [] :: (r.map cellEvents).flatten ++ [.endTag "tr"]

/-- The event stream for a whole `<table>`. -/
def tableEvents (rows : List (List String)) : List HEvent :=
  .startTag "table" [] :: (rows.map rowEvents).flatten ++ [.endTag "table"]

/-- The reachability invariant of the shared state relative to the
registrations `regs` seen so far: pending keys are distinct, every pending
entry and every resolved future stems from a registration, no pending
future is already resolved, and distinct pending entries have distinct
futures and distinct payloads. -/
def StateInv (regs : List (String × Nat × String)) (s : ConnState) : Prop :=
  (pendKeys s.pending).Nodup
  ∧ (∀ e ∈ s.pending, e ∈ regs)
  ∧ (∀ fx ∈ resolvedIds s, ∃ cx px, (cx, fx, px) ∈ regs)
  ∧ (∀ e ∈ s.pending, e.2.1 ∉ resolvedIds s)
  ∧ (∀ e1 ∈ s.pending, ∀ e2 ∈ s.pending, e1.2.1 = e2.2.1 → e1 = e2)
  ∧ (∀ e1 ∈ s.pending, ∀ e2 ∈ s.pending, e1.2.2 = e2.2.2 → e1 = e2)

/-! ## Backoff (C4) -/

theorem runEvs_fail_waits (md : String → List HEvent) (okR okP : Int → Bool) :
    ∀ (n : Nat) (s : ConnState),
      (runEvs md okR okP s (List.replicate n .fail)).2
        = (List.range n).map (fun i => Out.waitSecs (backoffIter s.backoff i)) := by
  intro n
  induction n with
  | zero => intro s; rfl
  | succ n ih =>
    intro s
    rw [List.replicate_succ, List.range_succ_eq_map]
    simp only [runEvs, step, List.map_cons, List.map_map]
    rw [ih]
    rfl

theorem backoffIter_min_pow (n : Nat) : ∀ k, 1 ≤ k →
    backoffIter (min (2 ^ k) 60) n = min (2 ^ (k + n)) 60 := by
  induction n with
  | zero => intro k _; rfl
  | succ n ih =>
    intro k hk
    have hstep : min (min (2 ^ k) 60 * 2) 60 = min (2 ^ (k + 1)) 60 := by
      rcases le_or_lt (2 ^ k) 60 with h | h
      · rw [min_eq_left h, pow_succ]
      · have h2 : (60 : Nat) < 2 ^ (k + 1) := by
          have := Nat.pow_le_pow_right (by norm_num : 1 ≤ 2) (Nat.le_succ k)
          omega
        rw [min_eq_right (le_of_lt h)]
        omega
    show backoffIter (min (min (2 ^ k) 60 * 2) 60) n = min (2 ^ (k + (n + 1))) 60
    rw [hstep, ih (k + 1) (by omega)]
    ring_nf

theorem backoffIter_two (n : Nat) : backoffIter 2 n = min (2 ^ (n + 1)) 60 := by
  have h := backoffIter_min_pow n 1 (le_refl 1)
  simpa [Nat.add_comm] using h

/-- C4: after every successful connect the backoff is reset to the floor 2,
and the waits emitted by `n` subsequent consecutive failures are
2, 4, 8, 16, 32, 60, 60, … — the `i`-th wait is `min (2^(i+1)) 60`. -/
theorem c4_backoff_sequence (md : String → List HEvent) (okR okP : Int → Bool)
    (s : ConnState) (n : Nat) :
    (step md okR okP s .connect).1.backoff = 2 ∧
    (runEvs md okR okP (step md okR okP s .connect).1 (List.replicate n .fail)).2
      = (List.range n).map (fun i => Out.waitSecs (min (2 ^ (i + 1)) 60)) := by
  refine ⟨rfl, ?_⟩
  rw [runEvs_fail_waits]
  have hb : (step md okR okP s .connect).1.backoff = 2 := rfl
  rw [hb]
  exact List.map_congr_left (fun i _ => by rw [backoffIter_two])

/-! ## Known-chat recording order (C9) -/

theorem insertChat_self_mem (cid : Int) (l : List Int) : cid ∈ insertChat cid l := by
  unfold insertChat
  split
  · next h => simpa using h
  · exact List.mem_append_right _ (List.mem_singleton.mpr rfl)

/-- C9: `handle_message` adds the chat id to the Known-Chat Set before the
empty-text check and before the allowlist check: the recorded set is
updated unconditionally, and when the text is empty or the sender fails
the allowlist the handler returns with the chat recorded and nothing
registered. -/
theorem c9_chat_recorded_first (allowed : List String) (cid src uid time : String)
    (chatId : Int) (mtext : Option String) (userId : String) (uname : Option String)
    (f : Nat) (s : ConnState) :
    (handleMessage allowed cid src uid time chatId mtext userId uname f s).1.knownChats
        = insertChat chatId s.knownChats
    ∧ chatId ∈ (handleMessage allowed cid src uid time chatId mtext userId uname f s).1.knownChats
    ∧ (pyStrip (mtext.getD "") = "" →
        handleMessage allowed cid src uid time chatId mtext userId uname f s
          = ({ s with knownChats := insertChat chatId s.knownChats }, false))
    ∧ (pyStrip (mtext.getD "") ≠ "" → allowed ≠ [] → ¬ (userId ∈ allowed) →
        usernameFails uname allowed = true →
        handleMessage allowed cid src uid time chatId mtext userId uname f s
          = ({ s with knownChats := insertChat chatId s.knownChats }, false)) := by
  have hmain :
      (handleMessage allowed cid src uid time chatId mtext userId uname f s).1.knownChats
        = insertChat chatId s.knownChats := by
    by_cases ht : pyStrip (mtext.getD "") = ""
    · simp [handleMessage, ht]
    · by_cases ha : allowed ≠ [] ∧ userId ∉ allowed ∧ usernameFails uname allowed = true
      · simp [handleMessage, ht, ha]
      · simp [handleMessage, ht, ha]
  refine ⟨hmain, hmain ▸ insertChat_self_mem chatId s.knownChats, ?_, ?_⟩
  · intro h
    simp [handleMessage, h]
  · intro h1 h2 h3 h4
    simp [handleMessage, h1, h2, h3, h4]

theorem c9_chat_recorded_first_witness :
    ((5 : Int) ∈ (handleMessage ["1"] "c" "s" "u" "t" 5 (some "  ") "2" none 0 initConn).1.knownChats)
    ∧ handleMessage ["1"] "c" "s" "u" "t" 5 (some "  ") "2" none 0 initConn
        = ({ initConn with knownChats := [5] }, false) :=
  ⟨(c9_chat_recorded_first ["1"] "c" "s" "u" "t" 5 (some "  ") "2" none 0 initConn).2.1,
   (c9_chat_recorded_first ["1"] "c" "s" "u" "t" 5 (some "  ") "2" none 0 initConn).2.2.1 (by
     show pyStrip (String.mk [' ', ' ']) = String.mk []
     decide)⟩

/-! ## Table rendering (C7) -/

theorem updRow_length : ∀ (ws : List Nat) (row : List String),
    (updRow ws row).length = max ws.length row.length := by
  intro ws row
  induction row generalizing ws with
  | nil => cases ws <;> simp [updRow]
  | cons c cs ih =>
    cases ws with
    | nil =>
      simp only [updRow, List.length_cons, ih, List.length_nil]
      omega
    | cons w ws2 =>
      simp only [updRow, List.length_cons, ih]
      omega

theorem updRow_getD : ∀ (ws : List Nat) (row : List String) (i : Nat),
    (updRow ws row).getD i 0 = max (ws.getD i 0) (lenAt row i) := by
  intro ws row
  induction row generalizing ws with
  | nil =>
    intro i
    cases ws <;> simp [updRow, lenAt]
  | cons c cs ih =>
    intro i
    cases ws with
    | nil =>
      cases i with
      | zero => simp [updRow, lenAt]
      | succ j => simpa [updRow, lenAt] using ih [] j
    | cons w ws2 =>
      cases i with
      | zero => simp [updRow, lenAt]
      | succ j => simpa [updRow, lenAt] using ih ws2 j

theorem foldl_updRow_getD : ∀ (rows : List (List String)) (ws : List Nat) (i : Nat),
    (rows.foldl updRow ws).getD i 0
      = rows.foldl (fun a row => max a (lenAt row i)) (ws.getD i 0) := by
  intro rows
  induction rows with
  | nil => intro ws i; rfl
  | cons r rs ih =>
    intro ws i
    simp only [List.foldl_cons]
    rw [ih, updRow_getD]

theorem foldl_updRow_length : ∀ (rows : List (List String)) (ws : List Nat),
    (rows.foldl updRow ws).length
      = rows.foldl (fun a row => max a row.length) ws.length := by
  intro rows
  induction rows with
  | nil => intro ws; rfl
  | cons r rs ih =>
    intro ws
    simp only [List.foldl_cons]
    rw [ih, updRow_length]

theorem le_foldl_max {α : Type} (g : α → Nat) :
    ∀ (l : List α) (a : Nat), a ≤ l.foldl (fun b x => max b (g x)) a := by
  intro l
  induction l with
  | nil => intro a; exact le_refl a
  | cons x xs ih => intro a; exact le_trans (le_max_left a (g x)) (ih (max a (g x)))

theorem mem_le_foldl_max {α : Type} (g : α → Nat) :
    ∀ (l : List α) (x : α), x ∈ l → ∀ a, g x ≤ l.foldl (fun b y => max b (g y)) a := by
  intro l
  induction l with
  | nil => intro x hx; cases hx
  | cons y ys ih =>
    intro x hx a
    rcases List.mem_cons.mp hx with rfl | hx2
    · exact le_trans (le_max_right a (g x)) (le_foldl_max g ys (max a (g x)))
    · exact ih x hx2 (max a (g y))

theorem lenAt_le_colWidth (rows : List (List String)) (row : List String)
    (hrow : row ∈ rows) (i : Nat) :
    lenAt row i ≤ (computeColWidths rows).getD i 0 := by
  rw [computeColWidths, foldl_updRow_getD]
  exact mem_le_foldl_max (fun r => lenAt r i) rows row hrow _

theorem length_le_colWidths_length (rows : List (List String)) (row : List String)
    (hrow : row ∈ rows) : row.length ≤ (computeColWidths rows).length := by
  rw [computeColWidths, foldl_updRow_length]
  exact mem_le_foldl_max List.length rows row hrow _

theorem padRow_get? (ws : List Nat) (row : List String) (i : Nat) :
    (padRow ws row).get? i
      = (row.get? i).map (fun c => if i < ws.length then ljust c (ws.getD i 0) else c) := by
  rw [padRow, List.get?_map, List.get?_enum]
  cases row.get? i <;> rfl

theorem ljust_length (s : String) (w : Nat) : (ljust s w).length = max s.length w := by
  show (s ++ String.mk (List.replicate (w - s.length) ' ')).length = max s.length w
  have h : (s ++ String.mk (List.replicate (w - s.length) ' ')).length
      = s.length + (w - s.length) := by
    show (s.data ++ List.replicate (w - s.length) ' ').length = s.length + (w - s.length)
    rw [List.length_append, List.length_replicate]
    rfl
  rw [h]
  omega

theorem rowLine_ne_sepLine (ws : List Nat) (row : List String) :
    rowLine ws row ≠ sepLine ws := by
  intro h
  have h2 : (rowLine ws row).data.get? 1 = (sepLine ws).data.get? 1 := by rw [h]
  have hr : (rowLine ws row).data.get? 1 = some ' ' := rfl
  have hs : (sepLine ws).data.get? 1 = some '-' := rfl
  rw [hr, hs] at h2
  exact absurd (Option.some.inj h2) (by decide)

/-- C7: for any (possibly ragged) nonempty table, the rendered grid is
wrapped in a code block, has one line per input row plus exactly one
separator placed right after the header row, and every rendered cell is
padded to at least the width of the widest cell of its column. -/
theorem c7_table_grid (rows : List (List String)) (hne : rows ≠ []) :
    (∃ body, renderTable rows = "<pre>" ++ body ++ "</pre>\n\n")
    ∧ (tableLines rows).length = rows.length + 1
    ∧ (∃ r0 rest, rows = r0 :: rest ∧
        tableLines rows =
          rowLine (computeColWidths rows) r0 :: sepLine (computeColWidths rows)
            :: rest.map (rowLine (computeColWidths rows)))
    ∧ (tableLines rows).count (sepLine (computeColWidths rows)) = 1
    ∧ (∀ row, row ∈ rows → ∀ i cell,
        (padRow (computeColWidths rows) row).get? i = some cell →
        ∀ row2, row2 ∈ rows → ∀ c2, row2.get? i = some c2 →
          c2.length ≤ cell.length) := by
  obtain ⟨r0, rest, rfl⟩ : ∃ r0 rest, rows = r0 :: rest := by
    cases rows with
    | nil => exact absurd rfl hne
    | cons a l => exact ⟨a, l, rfl⟩
  refine ⟨⟨_, rfl⟩, ?_, ⟨r0, rest, rfl, rfl⟩, ?_, ?_⟩
  · simp [tableLines]
  · have hne0 := rowLine_ne_sepLine (computeColWidths (r0 :: rest)) r0
    have h0 : (rest.map (rowLine (computeColWidths (r0 :: rest)))).count
        (sepLine (computeColWidths (r0 :: rest))) = 0 := by
      rw [List.count_eq_zero]
      intro hmem
      obtain ⟨r, hr, hrr⟩ := List.mem_map.mp hmem
      exact rowLine_ne_sepLine _ r hrr
    show (rowLine (computeColWidths (r0 :: rest)) r0 :: sepLine (computeColWidths (r0 :: rest))
        :: rest.map (rowLine (computeColWidths (r0 :: rest)))).count
        (sepLine (computeColWidths (r0 :: rest))) = 1
    rw [List.count_cons_of_ne (Ne.symm hne0), List.count_cons_self, h0]
  · intro row hrow i cell hcell row2 hrow2 c2 hc2
    rw [padRow_get?] at hcell
    obtain ⟨c, hc, hcc⟩ := Option.map_eq_some'.mp hcell
    have hi2 : i < row2.length := by
      by_contra hle
      rw [List.get?_eq_none.mpr (by omega)] at hc2
      exact Option.noConfusion hc2
    have hiw : i < (computeColWidths (r0 :: rest)).length :=
      lt_of_lt_of_le hi2 (length_le_colWidths_length _ row2 hrow2)
    rw [if_pos hiw] at hcc
    have h1 : c2.length ≤ (computeColWidths (r0 :: rest)).getD i 0 := by
      have h2 := lenAt_le_colWidth (r0 :: rest) row2 hrow2 i
      have hc2b : row2[i]? = some c2 := by
        rw [← List.get?_eq_getElem?]
        exact hc2
      simpa [lenAt, hc2b] using h2
    rw [← hcc, ljust_length]
    omega

theorem c7_table_grid_witness :
    (tableLines [["a"], ["bb", "c"]]).length = 3 :=
  (c7_table_grid [["a"], ["bb", "c"]] (by decide)).2.1

/-! ## Double escaping of table cells (C10) -/

theorem csteps_append (l1 l2 : List HEvent) (st : CState) :
    csteps (l1 ++ l2) st = csteps l2 (csteps l1 st) := by
  simp [csteps, List.foldl_append]

theorem csteps_cell (c : String) (st : CState) (hT : st.inTable = true) :
    csteps (cellEvents c) st
      = { st with currentRow := st.currentRow ++ [joinCell (st.currentCell ++ [escapeHtml c])],
                  currentCell := [] } := by
  show endStep (dataStep (startStep st "td" []) c) "td" = _
  have hso : startOut "td" [] st.stack = [] := rfl
  have h1 : startStep st "td" [] = { st with stack := "td" :: st.stack } := by
    simp [startStep, hso]
  rw [h1]
  have h2 : dataStep { st with stack := "td" :: st.stack } c
      = { st with stack := "td" :: st.stack,
                  currentCell := st.currentCell ++ [escapeHtml c] } := by
    simp [dataStep, hT]
  rw [h2]
  simp [endStep]

theorem csteps_cells (cs : List String) : ∀ (st : CState), st.inTable = true →
    st.currentCell = [] →
    csteps (cs.map cellEvents).flatten st
      = { st with currentRow := st.currentRow ++ cs.map (fun c => joinCell [escapeHtml c]),
                  currentCell := [] } := by
  induction cs with
  | nil =>
    intro st _ hcc
    obtain ⟨o, sk, it, tr, cr, cc⟩ := st
    simp only [csteps, List.map_nil, List.flatten_nil, List.foldl_nil]
    simp_all
  | cons c cs ih =>
    intro st hT hcc
    rw [List.map_cons, List.flatten_cons, csteps_append, csteps_cell c st hT, hcc]
    rw [ih { st with currentRow := st.currentRow ++ [joinCell ([] ++ [escapeHtml c])], currentCell := [] } hT rfl]
    simp

theorem csteps_row (r : List String) (st : CState) (hT : st.inTable = true)
    (hcc : st.currentCell = []) (hcr : st.currentRow = []) :
    csteps (rowEvents r) st
      = { st with tableRows := st.tableRows ++ [r.map (fun c => joinCell [escapeHtml c])],
                  currentRow := [], currentCell := [] } := by
  show csteps ((r.map cellEvents).flatten ++ [.endTag "tr"]) (startStep st "tr" []) = _
  have hso : startOut "tr" [] st.stack = [] := rfl
  have h1 : startStep st "tr" [] = { st with stack := "tr" :: st.stack } := by
    simp [startStep, hso]
  rw [h1, csteps_append, csteps_cells r { st with stack := "tr" :: st.stack } hT hcc]
  show endStep _ "tr" = _
  simp [endStep, hcr]

theorem csteps_rows (rows : List (List String)) : ∀ (st : CState), st.inTable = true →
    st.currentCell = [] → st.currentRow = [] →
    csteps (rows.map rowEvents).flatten st
      = { st with tableRows := st.tableRows
                    ++ rows.map (fun r => r.map (fun c => joinCell [escapeHtml c])),
                  currentRow := [], currentCell := [] } := by
  induction rows with
  | nil =>
    intro st hT hcc hcr
    obtain ⟨o, sk, it, tr, cr, cc⟩ := st
    simp only [csteps, List.map_nil, List.flatten_nil, List.foldl_nil]
    simp_all
  | cons r rows ih =>
    intro st hT hcc hcr
    rw [List.map_cons, List.flatten_cons, csteps_append, csteps_row r st hT hcc hcr]
    rw [ih { st with tableRows := st.tableRows ++ [r.map (fun c => joinCell [escapeHtml c])], currentRow := [], currentCell := [] } hT rfl rfl]
    simp

/-- C10: feeding a table through the converter escapes each cell once as it
is captured (`handle_data`), computes the column widths on that
once-escaped text, and then escapes the whole finished grid a second time
when wrapping it in the code block — so a `&` in a cell reaches the output
as `&amp;amp;`. -/
theorem c10_cells_escaped_twice (rows : List (List String)) :
    (convertEvents (tableEvents rows)).out
        = renderFrags (rows.map (fun r => r.map (fun c => joinCell [escapeHtml c])))
    ∧ escapeHtml (escapeHtml "&") = "&amp;amp;"
    ∧ (convertEvents (tableEvents [["&"]])).out
        = [Frag.tagOpen "pre", Frag.txt "| &amp;amp; |\n|-------|",
           Frag.tagClose "pre" "\n\n"] := by
  refine ⟨?_, by decide, by decide⟩
  have hstate : convertEvents (tableEvents rows)
      = { out := renderFrags (rows.map (fun r => r.map (fun c => joinCell [escapeHtml c]))),
          stack := [], inTable := false,
          tableRows := rows.map (fun r => r.map (fun c => joinCell [escapeHtml c])),
          currentRow := [], currentCell := [] } := by
    show csteps ((rows.map rowEvents).flatten ++ [.endTag "table"])
        (startStep initConv "table" []) = _
    have h1 : startStep initConv "table" []
        = { out := [], stack := ["table"], inTable := true, tableRows := [],
            currentRow := [], currentCell := [] } := rfl
    rw [h1, csteps_append]
    rw [csteps_rows rows { out := [], stack := ["table"], inTable := true, tableRows := [], currentRow := [], currentCell := [] } rfl rfl rfl]
    show endStep _ "table" = _
    simp [endStep]
  rw [hstate]

/-! ## Correlation-table lemmas -/

theorem lookupPend_erase_self (c : String) (l : List (String × Nat × String)) :
    lookupPend (erasePend c l) c = none := by
  induction l with
  | nil => rfl
  | cons e rest ih =>
    obtain ⟨c2, f2, p2⟩ := e
    by_cases h : c2 = c
    · simpa [erasePend, h] using (by simpa [erasePend] using ih)
    · simp [erasePend, lookupPend, h] at ih ⊢
      exact ih

theorem lookupPend_erase_other (c c2 : String) (l : List (String × Nat × String))
    (h : c2 ≠ c) : lookupPend (erasePend c l) c2 = lookupPend l c2 := by
  induction l with
  | nil => rfl
  | cons e rest ih =>
    obtain ⟨c3, f3, p3⟩ := e
    by_cases h3 : c3 = c
    · have hq : c ≠ c2 := Ne.symm h
      simp [erasePend, lookupPend, h3, hq] at ih ⊢
      exact ih
    · by_cases h4 : c3 = c2
      · have hq : c2 ≠ c := h
        simp [erasePend, lookupPend, h3, h4, hq]
      · simp [erasePend, lookupPend, h3, h4] at ih ⊢
        exact ih

/-! ## Timeout cancels exactly its own entry (C3) -/

/-- C3: the timeout branch of `handle_message` pops exactly the entry for
its own conversation, leaves every other pending entry and the resolved
set untouched, delivers the fixed notice, and a reply arriving for that
conversation afterwards is dropped with the unknown-conversation
diagnostic, changing nothing. -/
theorem c3_timeout_cancels_own_entry (md : String → List HEvent) (okR okP : Int → Bool)
    (s : ConnState) (c : String) (f : Nat) (p t : String)
    (hlook : lookupPend s.pending c = some (f, p)) (hb : c ≠ "broadcast") :
    (step md okR okP s (.timeout c)).1.pending = erasePend c s.pending
    ∧ lookupPend (step md okR okP s (.timeout c)).1.pending c = none
    ∧ (∀ c2, c2 ≠ c →
        lookupPend (step md okR okP s (.timeout c)).1.pending c2 = lookupPend s.pending c2)
    ∧ (step md okR okP s (.timeout c)).1.resolved = s.resolved
    ∧ (step md okR okP s (.timeout c)).2 = [.notice c timeoutNotice]
    ∧ step md okR okP (step md okR okP s (.timeout c)).1 (.reply c t)
        = ((step md okR okP s (.timeout c)).1, [.unknownConv c]) := by
  refine ⟨rfl, lookupPend_erase_self c s.pending,
    fun c2 h => lookupPend_erase_other c c2 s.pending h, rfl, rfl, ?_⟩
  show step md okR okP { s with pending := erasePend c s.pending } (.reply c t) = _
  simp [step, lookupPend_erase_self, hb]

theorem c3_timeout_cancels_own_entry_witness :
    lookupPend
      (step (fun _ => []) (fun _ => true) (fun _ => true)
        ⟨[("7", 0, "p7"), ("8", 1, "p8")], [], [], [], 2, true⟩ (.timeout "7")).1.pending "7" = none
    ∧ lookupPend
      (step (fun _ => []) (fun _ => true) (fun _ => true)
        ⟨[("7", 0, "p7"), ("8", 1, "p8")], [], [], [], 2, true⟩ (.timeout "7")).1.pending "8"
        = some (1, "p8") :=
  ⟨(c3_timeout_cancels_own_entry (fun _ => []) (fun _ => true) (fun _ => true)
      ⟨[("7", 0, "p7"), ("8", 1, "p8")], [], [], [], 2, true⟩ "7" 0 "p7" "late"
      (by decide) (by decide)).2.1,
   ((c3_timeout_cancels_own_entry (fun _ => []) (fun _ => true) (fun _ => true)
      ⟨[("7", 0, "p7"), ("8", 1, "p8")], [], [], [], 2, true⟩ "7" 0 "p7" "late"
      (by decide) (by decide)).2.2.1 "8" (by decide)).trans (by decide)⟩

/-! ## Broadcast fan-out (C6) -/

/-- C6: a broadcast frame (sentinel conversation id, no pending entry for
the sentinel) fans out to every chat in the Known-Chat Set; each
recipient's outcome depends only on that recipient's own delivery
oracles — a rendered-delivery failure falls back to the unrendered text
for that recipient and leaves every other recipient's delivery intact. -/
theorem c6_broadcast_fanout (md : String → List HEvent) (okR okP : Int → Bool)
    (s : ConnState) (t : String)
    (hnb : lookupPend s.pending "broadcast" = none) (hbot : s.botSet = true) :
    step md okR okP s (.reply "broadcast" t)
      = (s, s.knownChats.map (fun cid =>
          if okR cid then .sentRendered cid (mdToTelegramHtml md t)
          else if okP cid then .sentPlain cid t
          else .bcastFail cid))
    ∧ (∀ cid, cid ∈ s.knownChats → okR cid = true →
        Out.sentRendered cid (mdToTelegramHtml md t)
          ∈ (step md okR okP s (.reply "broadcast" t)).2)
    ∧ (∀ cid, cid ∈ s.knownChats → okR cid = false → okP cid = true →
        Out.sentPlain cid t ∈ (step md okR okP s (.reply "broadcast" t)).2) := by
  have h1 : step md okR okP s (.reply "broadcast" t)
      = (s, s.knownChats.map (fun cid =>
          if okR cid then .sentRendered cid (mdToTelegramHtml md t)
          else if okP cid then .sentPlain cid t
          else .bcastFail cid)) := by
    simp [step, hnb, hbot, bcastOuts]
  refine ⟨h1, ?_, ?_⟩
  · intro cid hc hok
    rw [h1]
    have := List.mem_map_of_mem
      (fun cid => if okR cid then Out.sentRendered cid (mdToTelegramHtml md t)
                  else if okP cid then Out.sentPlain cid t else Out.bcastFail cid) hc
    simpa [hok] using this
  · intro cid hc hok hokp
    rw [h1]
    have := List.mem_map_of_mem
      (fun cid => if okR cid then Out.sentRendered cid (mdToTelegramHtml md t)
                  else if okP cid then Out.sentPlain cid t else Out.bcastFail cid) hc
    simpa [hok, hokp] using this

theorem c6_broadcast_fanout_witness :
    (step (fun _ => []) (fun cid => cid != 2) (fun _ => true)
        ⟨[], [], [], [1, 2, 3], 2, true⟩ (.reply "broadcast" "hi")).2
      = [Out.sentRendered 1 (mdToTelegramHtml (fun _ => []) "hi"),
         Out.sentPlain 2 "hi",
         Out.sentRendered 3 (mdToTelegramHtml (fun _ => []) "hi")] := by
  have h := (c6_broadcast_fanout (fun _ => []) (fun cid => cid != 2) (fun _ => true)
    ⟨[], [], [], [1, 2, 3], 2, true⟩ "hi" (by decide) (by decide)).1
  rw [h]
  decide

/-! ## Trace and correlation-table infrastructure for C1 and C2 -/

theorem runEvs_append (md : String → List HEvent) (okR okP : Int → Bool)
    (tr1 tr2 : List Ev) : ∀ s,
    runEvs md okR okP s (tr1 ++ tr2)
      = ((runEvs md okR okP (runEvs md okR okP s tr1).1 tr2).1,
         (runEvs md okR okP s tr1).2 ++ (runEvs md okR okP (runEvs md okR okP s tr1).1 tr2).2) := by
  induction tr1 with
  | nil => intro s; simp [runEvs]
  | cons e tr ih =>
    intro s
    show runEvs md okR okP s (e :: (tr ++ tr2)) = _
    have h := ih (step md okR okP s e).1
    simp only [runEvs, h]
    simp [List.append_assoc]

theorem regTriples_append (tr1 tr2 : List Ev) :
    regTriples (tr1 ++ tr2) = regTriples tr1 ++ regTriples tr2 := by
  induction tr1 with
  | nil => rfl
  | cons e tr ih => cases e <;> simp [regTriples, ih]

theorem mem_regTriples (tr : List Ev) (c : String) (f : Nat) (p : String) :
    (c, f, p) ∈ regTriples tr ↔ Ev.register c f p ∈ tr := by
  induction tr with
  | nil => simp [regTriples]
  | cons e tr ih => cases e <;> simp [regTriples, ih]

theorem freshTrace_append_left (tr1 tr2 : List Ev) (h : FreshTrace (tr1 ++ tr2)) :
    FreshTrace tr1 := by
  obtain ⟨h1, h2⟩ := h
  rw [regTriples_append, List.map_append] at h1 h2
  exact ⟨h1.of_append_left, h2.of_append_left⟩

theorem lookupPend_map_replace (c : String) (f : Nat) (p : String) :
    ∀ (l : List (String × Nat × String)), l.any (fun e => e.1 == c) = true →
    lookupPend (l.map (fun e => if e.1 = c then (c, f, p) else e)) c = some (f, p) := by
  intro l
  induction l with
  | nil => intro h; simp at h
  | cons e rest ih =>
    intro h
    obtain ⟨c2, f2, p2⟩ := e
    by_cases h2 : c2 = c
    · subst h2
      have hhead : (if ((c2, f2, p2) : String × Nat × String).1 = c2 then (c2, f, p)
          else (c2, f2, p2)) = (c2, f, p) := by simp
      rw [List.map_cons, hhead]
      simp [lookupPend]
    · have h3 : rest.any (fun e => e.1 == c) = true := by
        simpa [h2] using h
      have hhead : (if ((c2, f2, p2) : String × Nat × String).1 = c then (c, f, p)
          else (c2, f2, p2)) = (c2, f2, p2) := by simp [h2]
      rw [List.map_cons, hhead]
      simp only [lookupPend]
      rw [if_neg h2]
      exact ih h3

theorem lookupPend_append_new (c : String) (f : Nat) (p : String) :
    ∀ (l : List (String × Nat × String)), l.any (fun e => e.1 == c) = false →
    lookupPend (l ++ [(c, f, p)]) c = some (f, p) := by
  intro l
  induction l with
  | nil => intro _; simp [lookupPend]
  | cons e rest ih =>
    intro h
    obtain ⟨c2, f2, p2⟩ := e
    rw [List.any_cons] at h
    obtain ⟨hc2, h3⟩ := Bool.or_eq_false_iff.mp h
    have h2 : ¬ (c2 = c) := by simpa using hc2
    simp only [List.cons_append, lookupPend]
    rw [if_neg h2]
    exact ih h3

theorem lookupPend_insert_self (c : String) (f : Nat) (p : String)
    (l : List (String × Nat × String)) :
    lookupPend (insertPend c f p l) c = some (f, p) := by
  unfold insertPend
  split
  · next h => exact lookupPend_map_replace c f p l h
  · next h => exact lookupPend_append_new c f p l (Bool.eq_false_iff.mpr h)

theorem lookupPend_insert_other (c c2 : String) (f : Nat) (p : String)
    (l : List (String × Nat × String)) (h : c2 ≠ c) :
    lookupPend (insertPend c f p l) c2 = lookupPend l c2 := by
  have happ : ∀ (l2 : List (String × Nat × String)),
      lookupPend (l2 ++ [(c, f, p)]) c2 = lookupPend l2 c2 := by
    intro l2
    induction l2 with
    | nil =>
      simp only [List.nil_append, lookupPend]
      rw [if_neg (Ne.symm h)]
    | cons e rest ih =>
      obtain ⟨c3, f3, p3⟩ := e
      simp only [List.cons_append, lookupPend]
      by_cases h4 : c3 = c2
      · rw [if_pos h4, if_pos h4]
      · rw [if_neg h4, if_neg h4]
        exact ih
  have hmap : lookupPend (l.map (fun e => if e.1 = c then (c, f, p) else e)) c2
      = lookupPend l c2 := by
    induction l with
    | nil => rfl
    | cons e rest ih =>
      obtain ⟨c3, f3, p3⟩ := e
      by_cases h3 : c3 = c
      · have hhead : (if ((c3, f3, p3) : String × Nat × String).1 = c then (c, f, p)
            else (c3, f3, p3)) = (c, f, p) := by simp [h3]
        rw [List.map_cons, hhead]
        simp only [lookupPend]
        rw [if_neg (Ne.symm h), if_neg (h3 ▸ (Ne.symm h) : ¬ c3 = c2)]
        exact ih
      · have hhead : (if ((c3, f3, p3) : String × Nat × String).1 = c then (c, f, p)
            else (c3, f3, p3)) = (c3, f3, p3) := by simp [h3]
        rw [List.map_cons, hhead]
        simp only [lookupPend]
        by_cases h4 : c3 = c2
        · rw [if_pos h4, if_pos h4]
        · rw [if_neg h4, if_neg h4]
          exact ih
  unfold insertPend
  split
  · exact hmap
  · exact happ l

theorem mem_insertPend (c : String) (f : Nat) (p : String)
    (l : List (String × Nat × String)) (e : String × Nat × String)
    (h : e ∈ insertPend c f p l) :
    e = (c, f, p) ∨ (e ∈ l ∧ e.1 ≠ c) := by
  unfold insertPend at h
  split at h
  · obtain ⟨a, ha, hae⟩ := List.mem_map.mp h
    by_cases h2 : a.1 = c
    · left
      rw [if_pos h2] at hae
      exact hae.symm
    · right
      rw [if_neg h2] at hae
      exact ⟨hae ▸ ha, hae ▸ h2⟩
  · next hany =>
    rcases List.mem_append.mp h with h2 | h2
    · right
      refine ⟨h2, ?_⟩
      have hf := List.any_eq_false.mp (Bool.eq_false_iff.mpr hany) e h2
      simpa using hf
    · left
      simpa using h2

theorem pendKeys_insertPend (c : String) (f : Nat) (p : String)
    (l : List (String × Nat × String)) :
    pendKeys (insertPend c f p l)
      = if l.any (fun e => e.1 == c) = true then pendKeys l else pendKeys l ++ [c] := by
  unfold insertPend pendKeys
  split
  · rw [List.map_map]
    apply List.map_congr_left
    intro e _
    by_cases h2 : e.1 = c
    · simp [h2]
    · simp [h2]
  · simp

theorem nodup_keys_insert (c : String) (f : Nat) (p : String)
    (l : List (String × Nat × String)) (h : (pendKeys l).Nodup) :
    (pendKeys (insertPend c f p l)).Nodup := by
  rw [pendKeys_insertPend]
  split
  · exact h
  · next hany =>
    have hnc : c ∉ pendKeys l := by
      intro hc
      obtain ⟨e, he, hec⟩ := List.mem_map.mp hc
      have hf := List.any_eq_false.mp (Bool.eq_false_iff.mpr hany) e he
      simp [hec] at hf
    simp [List.nodup_append, h, hnc]

theorem nodup_keys_erase (c : String) (l : List (String × Nat × String))
    (h : (pendKeys l).Nodup) : (pendKeys (erasePend c l)).Nodup := by
  have hs : (erasePend c l).Sublist l := List.filter_sublist l
  unfold pendKeys at h ⊢
  exact (hs.map (fun e => e.1)).nodup h

theorem mem_erasePend (c : String) (l : List (String × Nat × String))
    (e : String × Nat × String) : e ∈ erasePend c l ↔ e ∈ l ∧ e.1 ≠ c := by
  simp [erasePend, List.mem_filter, bne_iff_ne]

theorem lookupPend_mem (l : List (String × Nat × String)) (c : String) (f : Nat) (p : String)
    (h : lookupPend l c = some (f, p)) : (c, f, p) ∈ l := by
  induction l with
  | nil => simp [lookupPend] at h
  | cons e rest ih =>
    obtain ⟨c2, f2, p2⟩ := e
    simp only [lookupPend] at h
    by_cases h2 : c2 = c
    · rw [if_pos h2] at h
      have hq := Option.some.inj h
      rw [Prod.mk.injEq] at hq
      subst h2
      rw [hq.1, hq.2]
      exact List.mem_cons_self _ _
    · rw [if_neg h2] at h
      exact List.mem_cons_of_mem _ (ih h)

theorem lookupPend_of_mem_nodup (l : List (String × Nat × String)) (c : String) (f : Nat)
    (p : String) (hn : (pendKeys l).Nodup) (h : (c, f, p) ∈ l) :
    lookupPend l c = some (f, p) := by
  induction l with
  | nil => cases h
  | cons e rest ih =>
    obtain ⟨c2, f2, p2⟩ := e
    simp only [pendKeys, List.map_cons, List.nodup_cons] at hn
    rcases List.mem_cons.mp h with heq | hmem
    · cases heq
      simp [lookupPend]
    · have hc : c ∈ pendKeys rest := List.mem_map_of_mem (fun e => e.1) hmem
      have hne : ¬ (c2 = c) := by
        intro hq
        subst hq
        exact hn.1 hc
      simp only [lookupPend]
      rw [if_neg hne]
      exact ih hn.2 hmem

theorem filter_key_count (l : List (String × Nat × String)) (c : String) (f : Nat) (p : String)
    (hn : (pendKeys l).Nodup) (h : lookupPend l c = some (f, p)) :
    (l.filter (fun e => e.1 == c)).length = 1 := by
  induction l with
  | nil => simp [lookupPend] at h
  | cons e rest ih =>
    obtain ⟨c2, f2, p2⟩ := e
    simp only [pendKeys, List.map_cons, List.nodup_cons] at hn
    by_cases h2 : c2 = c
    · subst h2
      have hrest : rest.filter (fun e => e.1 == c2) = [] := by
        rw [List.filter_eq_nil_iff]
        intro a ha hq
        exact hn.1 (by
          have : a.1 = c2 := by simpa using hq
          exact this ▸ List.mem_map_of_mem (fun e => e.1) ha)
      simp [List.filter_cons, hrest]
    · have hstep : ((c2, f2, p2) :: rest).filter (fun e => e.1 == c)
          = rest.filter (fun e => e.1 == c) := by
        simp [List.filter_cons, h2]
      rw [hstep]
      simp only [lookupPend] at h
      rw [if_neg h2] at h
      exact ih hn.2 h

theorem runState_append_step (md : String → List HEvent) (okR okP : Int → Bool)
    (tr : List Ev) (e : Ev) :
    runState md okR okP (tr ++ [e]) = (step md okR okP (runState md okR okP tr) e).1 := by
  simp [runState, runEvs_append, runEvs]

theorem stateInv_run (md : String → List HEvent) (okR okP : Int → Bool) :
    ∀ (tr : List Ev), FreshTrace tr → StateInv (regTriples tr) (runState md okR okP tr) := by
  intro tr
  induction tr using List.reverseRecOn with
  | nil =>
    intro _
    refine ⟨?_, ?_, ?_, ?_, ?_, ?_⟩ <;>
      simp [runState, runEvs, initConn, pendKeys, resolvedIds, regTriples]
  | append_singleton tr e ih =>
    intro hF
    have hF2 : FreshTrace tr := freshTrace_append_left tr [e] hF
    obtain ⟨I1, I2, I3, I4, I5, I6⟩ := ih hF2
    rw [runState_append_step]
    cases e with
    | register c f p =>
      have hreg : regTriples (tr ++ [Ev.register c f p]) = regTriples tr ++ [(c, f, p)] := by
        simp [regTriples_append, regTriples]
      have hFf : f ∉ (regTriples tr).map (fun e => e.2.1) := by
        have h1 := hF.1
        rw [regTriples_append] at h1
        simp only [regTriples, List.map_append] at h1
        have hd := List.disjoint_of_nodup_append h1
        intro hmem
        exact hd hmem (by simp)
      have hFp : p ∉ (regTriples tr).map (fun e => e.2.2) := by
        have h1 := hF.2
        rw [regTriples_append] at h1
        simp only [regTriples, List.map_append] at h1
        have hd := List.disjoint_of_nodup_append h1
        intro hmem
        exact hd hmem (by simp)
      rw [hreg]
      refine ⟨?_, ?_, ?_, ?_, ?_, ?_⟩
      · exact nodup_keys_insert c f p _ I1
      · intro e he
        rcases mem_insertPend c f p _ e he with rfl | ⟨hmem, _⟩
        · exact List.mem_append_right _ (by simp)
        · exact List.mem_append_left _ (I2 e hmem)
      · intro fx hfx
        obtain ⟨cx, px, hcx⟩ := I3 fx hfx
        exact ⟨cx, px, List.mem_append_left _ hcx⟩
      · intro e he hres
        rcases mem_insertPend c f p _ e he with rfl | ⟨hmem, _⟩
        · obtain ⟨cx, px, hcx⟩ := I3 _ hres
          exact hFf (List.mem_map_of_mem (fun e => e.2.1) hcx)
        · exact I4 e hmem hres
      · intro e1 h1 e2 h2 hfe
        rcases mem_insertPend c f p _ e1 h1 with rfl | ⟨hm1, _⟩ <;>
          rcases mem_insertPend c f p _ e2 h2 with rfl | ⟨hm2, _⟩
        · rfl
        · exfalso
          apply hFf
          have hgoal : f = e2.2.1 := hfe
          rw [hgoal]
          exact List.mem_map_of_mem (fun e => e.2.1) (I2 e2 hm2)
        · exfalso
          apply hFf
          have hgoal : f = e1.2.1 := hfe.symm
          rw [hgoal]
          exact List.mem_map_of_mem (fun e => e.2.1) (I2 e1 hm1)
        · exact I5 e1 hm1 e2 hm2 hfe
      · intro e1 h1 e2 h2 hpe
        rcases mem_insertPend c f p _ e1 h1 with rfl | ⟨hm1, _⟩ <;>
          rcases mem_insertPend c f p _ e2 h2 with rfl | ⟨hm2, _⟩
        · rfl
        · exfalso
          apply hFp
          have hgoal : p = e2.2.2 := hpe
          rw [hgoal]
          exact List.mem_map_of_mem (fun e => e.2.2) (I2 e2 hm2)
        · exfalso
          apply hFp
          have hgoal : p = e1.2.2 := hpe.symm
          rw [hgoal]
          exact List.mem_map_of_mem (fun e => e.2.2) (I2 e1 hm1)
        · exact I6 e1 hm1 e2 hm2 hpe
    | reply c t =>
      have hreg : regTriples (tr ++ [Ev.reply c t]) = regTriples tr := by
        simp [regTriples_append, regTriples]
      rw [hreg]
      rcases hl : lookupPend (runState md okR okP tr).pending c with _ | ⟨f, pp⟩
      · have hstep : (step md okR okP (runState md okR okP tr) (Ev.reply c t)).1
            = runState md okR okP tr := by
          simp only [step, hl]
          split <;> rfl
        rw [hstep]
        exact ⟨I1, I2, I3, I4, I5, I6⟩
      · by_cases hc : c = ""
        · have hstep : (step md okR okP (runState md okR okP tr) (Ev.reply c t)).1
              = runState md okR okP tr := by
            simp only [step, hl]
            rw [if_pos hc]
          rw [hstep]
          exact ⟨I1, I2, I3, I4, I5, I6⟩
        · have hstep : (step md okR okP (runState md okR okP tr) (Ev.reply c t)).1
              = { runState md okR okP tr with
                  pending := erasePend c (runState md okR okP tr).pending,
                  resolved := if (resolvedIds (runState md okR okP tr)).contains f
                              then (runState md okR okP tr).resolved
                              else (runState md okR okP tr).resolved ++ [(f, t)] } := by
            simp only [step, hl]
            rw [if_neg hc]
          rw [hstep]
          have hressub : ∀ fx, fx ∈ resolvedIds
              { runState md okR okP tr with
                pending := erasePend c (runState md okR okP tr).pending,
                resolved := if (resolvedIds (runState md okR okP tr)).contains f
                            then (runState md okR okP tr).resolved
                            else (runState md okR okP tr).resolved ++ [(f, t)] } →
              fx ∈ resolvedIds (runState md okR okP tr) ∨ fx = f := by
            intro fx hfx
            have hfx2 : fx ∈ (if (resolvedIds (runState md okR okP tr)).contains f
                then (runState md okR okP tr).resolved
                else (runState md okR okP tr).resolved ++ [(f, t)]).map (fun e => e.1) := hfx
            split at hfx2
            · exact Or.inl hfx2
            · rw [List.map_append] at hfx2
              rcases List.mem_append.mp hfx2 with h | h
              · exact Or.inl h
              · right
                simpa using h
          have hcfp : (c, f, pp) ∈ (runState md okR okP tr).pending :=
            lookupPend_mem _ c f pp hl
          refine ⟨nodup_keys_erase c _ I1, ?_, ?_, ?_, ?_, ?_⟩
          · intro e he
            exact I2 e ((mem_erasePend _ _ _).mp he).1
          · intro fx hfx
            rcases hressub fx hfx with hold | rfl
            · exact I3 fx hold
            · exact ⟨c, pp, I2 _ hcfp⟩
          · intro e he hres
            obtain ⟨hmem, hkey⟩ := (mem_erasePend _ _ _).mp he
            rcases hressub _ hres with hold | heq
            · exact I4 e hmem hold
            · have heq2 := I5 e hmem (c, f, pp) hcfp heq
              exact hkey (by rw [heq2])
          · intro e1 h1 e2 h2 hfe
            exact I5 e1 ((mem_erasePend _ _ _).mp h1).1 e2 ((mem_erasePend _ _ _).mp h2).1 hfe
          · intro e1 h1 e2 h2 hpe
            exact I6 e1 ((mem_erasePend _ _ _).mp h1).1 e2 ((mem_erasePend _ _ _).mp h2).1 hpe
    | timeout c =>
      have hreg : regTriples (tr ++ [Ev.timeout c]) = regTriples tr := by
        simp [regTriples_append, regTriples]
      rw [hreg]
      refine ⟨nodup_keys_erase c _ I1, ?_, I3, ?_, ?_, ?_⟩
      · intro e he
        exact I2 e ((mem_erasePend _ _ _).mp he).1
      · intro e he
        exact I4 e ((mem_erasePend _ _ _).mp he).1
      · intro e1 h1 e2 h2 hfe
        exact I5 e1 ((mem_erasePend _ _ _).mp h1).1 e2 ((mem_erasePend _ _ _).mp h2).1 hfe
      · intro e1 h1 e2 h2 hpe
        exact I6 e1 ((mem_erasePend _ _ _).mp h1).1 e2 ((mem_erasePend _ _ _).mp h2).1 hpe
    | connect =>
      have hreg : regTriples (tr ++ [Ev.connect]) = regTriples tr := by
        simp [regTriples_append, regTriples]
      rw [hreg]
      exact ⟨I1, I2, I3, I4, I5, I6⟩
    | fail =>
      have hreg : regTriples (tr ++ [Ev.fail]) = regTriples tr := by
        simp [regTriples_append, regTriples]
      rw [hreg]
      exact ⟨I1, I2, I3, I4, I5, I6⟩
    | send =>
      have hreg : regTriples (tr ++ [Ev.send]) = regTriples tr := by
        simp [regTriples_append, regTriples]
      rw [hreg]
      exact ⟨I1, I2, I3, I4, I5, I6⟩

theorem stayOut (md : String → List HEvent) (okR okP : Int → Bool) (f1 : Nat) :
    ∀ (tr2 : List Ev) (s : ConnState),
      f1 ∉ resolvedIds s →
      (∀ e ∈ s.pending, e.2.1 ≠ f1) →
      (∀ cx px, Ev.register cx f1 px ∉ tr2) →
      f1 ∉ resolvedIds (runEvs md okR okP s tr2).1
      ∧ (∀ e ∈ (runEvs md okR okP s tr2).1.pending, e.2.1 ≠ f1) := by
  intro tr2
  induction tr2 with
  | nil =>
    intro s h1 h2 _
    exact ⟨h1, h2⟩
  | cons e tr ih =>
    intro s h1 h2 h3
    have h3b : ∀ cx px, Ev.register cx f1 px ∉ tr :=
      fun cx px hm => h3 cx px (List.mem_cons_of_mem _ hm)
    have hshape : (runEvs md okR okP s (e :: tr)).1
        = (runEvs md okR okP (step md okR okP s e).1 tr).1 := rfl
    rw [hshape]
    cases e with
    | register c f p =>
      refine ih _ ?_ ?_ h3b
      · exact h1
      · intro e2 he2
        rcases mem_insertPend c f p _ e2 he2 with rfl | ⟨hm, _⟩
        · intro hq
          have hq2 : f = f1 := hq
          subst hq2
          exact h3 c p (List.mem_cons_self _ _)
        · exact h2 e2 hm
    | reply c t =>
      rcases hl : lookupPend s.pending c with _ | ⟨fx, px⟩
      · have hstep : (step md okR okP s (Ev.reply c t)).1 = s := by
          simp only [step, hl]
          split <;> rfl
        rw [hstep]
        exact ih s h1 h2 h3b
      · by_cases hcq : c = ""
        · have hstep : (step md okR okP s (Ev.reply c t)).1 = s := by
            simp only [step, hl]
            rw [if_pos hcq]
          rw [hstep]
          exact ih s h1 h2 h3b
        · have hstep : (step md okR okP s (Ev.reply c t)).1
              = { s with pending := erasePend c s.pending,
                         resolved := if (resolvedIds s).contains fx then s.resolved
                                     else s.resolved ++ [(fx, t)] } := by
            simp only [step, hl]
            rw [if_neg hcq]
          rw [hstep]
          refine ih _ ?_ ?_ h3b
          · intro hmemr
            have hfx : fx ≠ f1 := h2 _ (lookupPend_mem _ _ _ _ hl)
            have hmem2 : f1 ∈ (if (resolvedIds s).contains fx then s.resolved
                else s.resolved ++ [(fx, t)]).map (fun e => e.1) := hmemr
            split at hmem2
            · exact h1 hmem2
            · rw [List.map_append] at hmem2
              rcases List.mem_append.mp hmem2 with h | h
              · exact h1 h
              · simp at h
                exact hfx h.symm
          · intro e2 he2
            exact h2 e2 ((mem_erasePend _ _ _).mp he2).1
    | timeout c =>
      refine ih _ ?_ ?_ h3b
      · exact h1
      · intro e2 he2
        exact h2 e2 ((mem_erasePend _ _ _).mp he2).1
    | connect => exact ih _ h1 h2 h3b
    | fail => exact ih _ h1 h2 h3b
    | send => exact ih _ h1 h2 h3b

/-! ## Redelivery resync (C1) -/

/-- C1: a still-unresolved pending request originates from a `register`
event that stored its serialized envelope verbatim; every subsequent
successful connect first drains the queue and then re-enqueues exactly the
unresolved originals, so the queue holds exactly one copy of that
request's stored payload — and once the request is resolved (a reply
arrived) or cancelled (timeout), a connect re-enqueues no copy of it. -/
theorem c1_resync_redelivery (md : String → List HEvent) (okR okP : Int → Bool)
    (tr : List Ev) (c : String) (f : Nat) (p : String)
    (hF : FreshTrace tr)
    (hmem : (c, f, p) ∈ (runState md okR okP tr).pending)
    (hc : c ≠ "") :
    Ev.register c f p ∈ tr
    ∧ (runState md okR okP (tr ++ [Ev.connect])).sendQueue
        = resyncList (runState md okR okP tr)
    ∧ (runState md okR okP (tr ++ [Ev.connect])).sendQueue.count p = 1
    ∧ (∀ t, (runState md okR okP (tr ++ [Ev.reply c t, Ev.connect])).sendQueue.count p = 0)
    ∧ (runState md okR okP (tr ++ [Ev.timeout c, Ev.connect])).sendQueue.count p = 0 := by
  obtain ⟨I1, I2, I3, I4, I5, I6⟩ := stateInv_run md okR okP tr hF
  have hqeq : (runState md okR okP (tr ++ [Ev.connect])).sendQueue
      = resyncList (runState md okR okP tr) := by
    rw [runState_append_step]
    rfl
  have hpendNodup : (runState md okR okP tr).pending.Nodup := I1.of_map
  have hkey : ∀ (s3 : ConnState),
      s3.pending = erasePend c (runState md okR okP tr).pending →
      (resyncList s3).count p = 0 := by
    intro s3 h3
    rw [List.count_eq_zero]
    intro hmem2
    obtain ⟨e, hef, hep⟩ := List.mem_map.mp hmem2
    have he2 : e ∈ s3.pending := (List.mem_filter.mp hef).1
    rw [h3] at he2
    obtain ⟨hold, hkey2⟩ := (mem_erasePend _ _ _).mp he2
    have heq := I6 e hold (c, f, p) hmem hep
    exact hkey2 (by rw [heq])
  refine ⟨(mem_regTriples tr c f p).mp (I2 _ hmem), hqeq, ?_, ?_, ?_⟩
  · rw [hqeq]
    have hfres : f ∉ resolvedIds (runState md okR okP tr) := I4 _ hmem
    have hpassfilter : ((c, f, p) : String × Nat × String) ∈
        (runState md okR okP tr).pending.filter
          (fun e => !((resolvedIds (runState md okR okP tr)).contains e.2.1)) := by
      rw [List.mem_filter]
      refine ⟨hmem, ?_⟩
      simpa using hfres
    have hmemq : p ∈ resyncList (runState md okR okP tr) :=
      List.mem_map_of_mem (fun e => e.2.2) hpassfilter
    have hnodupq : (resyncList (runState md okR okP tr)).Nodup := by
      have hsub : ((runState md okR okP tr).pending.filter
          (fun e => !((resolvedIds (runState md okR okP tr)).contains e.2.1))).Sublist
          (runState md okR okP tr).pending := List.filter_sublist _
      refine List.Nodup.map_on ?_ (hsub.nodup hpendNodup)
      intro x hx y hy hxy
      exact I6 x (hsub.mem hx) y (hsub.mem hy) hxy
    exact List.count_eq_one_of_mem hnodupq hmemq
  · intro t
    have hsplit : tr ++ [Ev.reply c t, Ev.connect] = (tr ++ [Ev.reply c t]) ++ [Ev.connect] := by
      simp
    rw [hsplit, runState_append_step]
    have hl : lookupPend (runState md okR okP tr).pending c = some (f, p) :=
      lookupPend_of_mem_nodup _ c f p I1 hmem
    have hstep : (runState md okR okP (tr ++ [Ev.reply c t])).pending
        = erasePend c (runState md okR okP tr).pending := by
      rw [runState_append_step]
      simp only [step, hl]
      rw [if_neg hc]
    exact hkey _ hstep
  · have hsplit : tr ++ [Ev.timeout c, Ev.connect] = (tr ++ [Ev.timeout c]) ++ [Ev.connect] := by
      simp
    rw [hsplit, runState_append_step]
    have hstep : (runState md okR okP (tr ++ [Ev.timeout c])).pending
        = erasePend c (runState md okR okP tr).pending := by
      rw [runState_append_step]
      rfl
    exact hkey _ hstep

theorem c1_resync_redelivery_witness :
    (runState (fun _ => []) (fun _ => true) (fun _ => true)
        ([Ev.register "4" 0 "pay"] ++ [Ev.connect])).sendQueue.count "pay" = 1 :=
  (c1_resync_redelivery (fun _ => []) (fun _ => true) (fun _ => true)
    [Ev.register "4" 0 "pay"] "4" 0 "pay" ⟨by decide, by decide⟩ (by decide) (by decide)).2.2.1

/-! ## At most one live pending request per conversation (C2) -/

/-- C2: registering a second request for a conversation id leaves exactly
one resolvable slot for that id — the latest — and the superseded
earlier future is never resolved by anything that happens afterwards. -/
theorem c2_latest_register_wins (md : String → List HEvent) (okR okP : Int → Bool)
    (tr tr2 : List Ev) (c : String) (f1 f2 : Nat) (p1 p2 : String)
    (hF : FreshTrace (tr ++ Ev.register c f2 p2 :: tr2))
    (h1 : lookupPend (runState md okR okP tr).pending c = some (f1, p1))
    (hne : f1 ≠ f2) :
    lookupPend (runState md okR okP (tr ++ [Ev.register c f2 p2])).pending c = some (f2, p2)
    ∧ ((runState md okR okP (tr ++ [Ev.register c f2 p2])).pending.filter
        (fun e => e.1 == c)).length = 1
    ∧ f1 ∉ resolvedIds (runState md okR okP (tr ++ Ev.register c f2 p2 :: tr2)) := by
  have hassoc : tr ++ Ev.register c f2 p2 :: tr2 = (tr ++ [Ev.register c f2 p2]) ++ tr2 := by
    simp
  have hF1 : FreshTrace (tr ++ [Ev.register c f2 p2]) := by
    rw [hassoc] at hF
    exact freshTrace_append_left _ _ hF
  have hFtr : FreshTrace tr := freshTrace_append_left _ _ hF1
  obtain ⟨I1, I2, I3, I4, I5, I6⟩ := stateInv_run md okR okP tr hFtr
  have hinv1 := stateInv_run md okR okP (tr ++ [Ev.register c f2 p2]) hF1
  have hs1 : runState md okR okP (tr ++ [Ev.register c f2 p2])
      = (step md okR okP (runState md okR okP tr) (Ev.register c f2 p2)).1 :=
    runState_append_step md okR okP tr _
  have hlook2 : lookupPend
      (runState md okR okP (tr ++ [Ev.register c f2 p2])).pending c = some (f2, p2) := by
    rw [hs1]
    exact lookupPend_insert_self c f2 p2 _
  refine ⟨hlook2, filter_key_count _ c f2 p2 hinv1.1 hlook2, ?_⟩
  have hcf1 : (c, f1, p1) ∈ (runState md okR okP tr).pending := lookupPend_mem _ _ _ _ h1
  have hregf1 : Ev.register c f1 p1 ∈ tr := (mem_regTriples tr c f1 p1).mp (I2 _ hcf1)
  have hres1 : f1 ∉ resolvedIds (runState md okR okP (tr ++ [Ev.register c f2 p2])) := by
    rw [hs1]
    exact I4 _ hcf1
  have hpend1 : ∀ e ∈ (runState md okR okP (tr ++ [Ev.register c f2 p2])).pending,
      e.2.1 ≠ f1 := by
    rw [hs1]
    intro e he hq
    rcases mem_insertPend c f2 p2 _ e he with rfl | ⟨hmem, hkey⟩
    · exact hne (hq.symm)
    · have heq := I5 e hmem (c, f1, p1) hcf1 hq
      exact hkey (by rw [heq])
  have hnof1 : ∀ cx px, Ev.register cx f1 px ∉ tr2 := by
    intro cx px hmem
    have hfuts := hF.1
    rw [regTriples_append] at hfuts
    simp only [regTriples, List.map_append, List.map_cons] at hfuts
    have hd := List.disjoint_of_nodup_append hfuts
    exact hd (List.mem_map_of_mem (fun e => e.2.1) ((mem_regTriples tr c f1 p1).mpr hregf1))
      (List.mem_cons_of_mem _
        (List.mem_map_of_mem (fun e => e.2.1) ((mem_regTriples tr2 cx f1 px).mpr hmem)))
  have hrun : runState md okR okP (tr ++ Ev.register c f2 p2 :: tr2)
      = (runEvs md okR okP (runState md okR okP (tr ++ [Ev.register c f2 p2])) tr2).1 := by
    rw [hassoc]
    simp only [runState, runEvs_append]
  rw [hrun]
  exact (stayOut md okR okP f1 tr2 _ hres1 hpend1 hnof1).1

theorem c2_latest_register_wins_witness :
    lookupPend (runState (fun _ => []) (fun _ => true) (fun _ => true)
      ([Ev.register "7" 0 "a"] ++ [Ev.register "7" 1 "b"])).pending "7" = some (1, "b")
    ∧ 0 ∉ resolvedIds (runState (fun _ => []) (fun _ => true) (fun _ => true)
        ([Ev.register "7" 0 "a"] ++ Ev.register "7" 1 "b" :: [Ev.reply "7" "ok"])) :=
  ⟨(c2_latest_register_wins (fun _ => []) (fun _ => true) (fun _ => true)
      [Ev.register "7" 0 "a"] [Ev.reply "7" "ok"] "7" 0 1 "a" "b"
      ⟨by decide, by decide⟩ (by decide) (by decide)).1,
   (c2_latest_register_wins (fun _ => []) (fun _ => true) (fun _ => true)
      [Ev.register "7" 0 "a"] [Ev.reply "7" "ok"] "7" 0 1 "a" "b"
      ⟨by decide, by decide⟩ (by decide) (by decide)).2.2⟩

/-! ## Envelope codec round trip (C5) -/

theorem psc_quote (rest : List Char) : parseStrChars ('"' :: rest) = some ([], rest) := by
  rw [parseStrChars.eq_def]
  rfl

theorem psc_escq (rest : List Char) :
    parseStrChars ('\\' :: '"' :: rest)
      = (parseStrChars rest).map (fun r => ('"' :: r.1, r.2)) := by
  rw [parseStrChars.eq_def]
  rfl

theorem psc_escb (rest : List Char) :
    parseStrChars ('\\' :: '\\' :: rest)
      = (parseStrChars rest).map (fun r => ('\\' :: r.1, r.2)) := by
  rw [parseStrChars.eq_def]
  rfl

theorem psc_lit (c : Char) (rest : List Char) (h1 : ¬ c = '"') (h2 : ¬ c = '\\') :
    parseStrChars (c :: rest) = (parseStrChars rest).map (fun r => (c :: r.1, r.2)) := by
  rw [parseStrChars.eq_def]
  show (if c = '"' then some ([], rest) else _) = _
  rw [if_neg h1, if_neg h2]

theorem parseStrChars_escape : ∀ (l rest : List Char),
    parseStrChars (jsonEscChars l ++ '"' :: rest) = some (l, rest) := by
  intro l
  induction l with
  | nil =>
    intro rest
    show parseStrChars ('"' :: rest) = some ([], rest)
    exact psc_quote rest
  | cons c cs ih =>
    intro rest
    by_cases h1 : c = '"'
    · subst h1
      show parseStrChars (('\\' :: '"' :: jsonEscChars cs) ++ '"' :: rest) = _
      simp only [List.cons_append]
      rw [psc_escq, ih]
      rfl
    · by_cases h2 : c = '\\'
      · subst h2
        show parseStrChars (('\\' :: '\\' :: jsonEscChars cs) ++ '"' :: rest) = _
        simp only [List.cons_append]
        rw [psc_escb, ih]
        rfl
      · have hesc : jsonEscChar c = [c] := by
          simp [jsonEscChar, h1, h2]
        show parseStrChars ((jsonEscChar c ++ jsonEscChars cs) ++ '"' :: rest) = _
        rw [hesc]
        simp only [List.cons_append, List.nil_append]
        rw [psc_lit c _ h1 h2, ih]
        rfl

theorem skipWs_not_ws (c : Char) (cs : List Char)
    (h : ¬ (c = ' ' ∨ c = '\t' ∨ c = '\n' ∨ c = '\r')) :
    skipWs (c :: cs) = c :: cs := by
  rw [skipWs.eq_def]
  show (if c = ' ' ∨ c = '\t' ∨ c = '\n' ∨ c = '\r' then skipWs cs else c :: cs) = c :: cs
  rw [if_neg h]

theorem skipWs_space (cs : List Char) : skipWs (' ' :: cs) = skipWs cs := by
  rw [skipWs.eq_def]
  rfl

theorem skipWs_quote (cs : List Char) : skipWs ('"' :: cs) = '"' :: cs :=
  skipWs_not_ws _ _ (by decide)

theorem skipWs_lbrace (cs : List Char) : skipWs ('{' :: cs) = '{' :: cs :=
  skipWs_not_ws _ _ (by decide)

theorem skipWs_rbrace (cs : List Char) : skipWs ('}' :: cs) = '}' :: cs :=
  skipWs_not_ws _ _ (by decide)

theorem skipWs_colon (cs : List Char) : skipWs (':' :: cs) = ':' :: cs :=
  skipWs_not_ws _ _ (by decide)

theorem skipWs_comma (cs : List Char) : skipWs (',' :: cs) = ',' :: cs :=
  skipWs_not_ws _ _ (by decide)

theorem parseValue_succ (f : Nat) (cs : List Char) :
    parseValue (f + 1) cs
      = match skipWs cs with
        | '"' :: cs2 => (parseStrChars cs2).map (fun r => (Json.str (String.mk r.1), r.2))
        | '{' :: cs2 =>
          (match skipWs cs2 with
           | '}' :: r => some (Json.obj [], r)
           | cs3 => parseFields f cs3)
        | '[' :: cs2 =>
          (match skipWs cs2 with
           | ']' :: r => some (Json.arr [], r)
           | cs3 => parseItems f cs3)
        | 't' :: 'r' :: 'u' :: 'e' :: r => some (Json.bool true, r)
        | 'f' :: 'a' :: 'l' :: 's' :: 'e' :: r => some (Json.bool false, r)
        | 'n' :: 'u' :: 'l' :: 'l' :: r => some (Json.null, r)
        | cs2 => parseNumber cs2 := by
  rw [parseValue.eq_def]

theorem parseValue_pad (f : Nat) (cs : List Char) :
    parseValue (f + 1) (' ' :: cs) = parseValue (f + 1) cs := by
  rw [parseValue_succ, parseValue_succ, skipWs_space]

theorem parseValue_str (f : Nat) (s : String) (rest : List Char) :
    parseValue (f + 1) (jstrChars s ++ rest) = some (.str s, rest) := by
  have hin : jstrChars s ++ rest = '"' :: (jsonEscChars s.data ++ '"' :: rest) := by
    simp [jstrChars]
  rw [hin, parseValue_succ]
  simp only [skipWs_quote, parseStrChars_escape]
  rfl


theorem parseFields_pad (f : Nat) (cs : List Char) :
    parseFields (f + 1) (' ' :: cs) = parseFields (f + 1) cs := by
  conv_lhs => rw [parseFields.eq_def]
  conv_rhs => rw [parseFields.eq_def]
  simp only [skipWs_space]

theorem parseFields_strvals : ∀ (kvs : List (String × Json)),
    (∀ kv ∈ kvs, ∃ s, kv.2 = Json.str s) → kvs ≠ [] →
    ∀ (f : Nat), kvs.length + 1 ≤ f → ∀ (rest : List Char),
    parseFields f (dumpsFields kvs ++ '}' :: rest) = some (.obj kvs, rest) := by
  intro kvs
  induction kvs with
  | nil => intro _ hne; exact absurd rfl hne
  | cons kv kvs2 ih =>
    intro hall _ f hf rest
    obtain ⟨k, v⟩ := kv
    obtain ⟨s, hv⟩ := hall (k, v) (List.mem_cons_self _ _)
    have hv2 : v = Json.str s := hv
    subst hv2
    obtain ⟨f2, rfl⟩ : ∃ f2, f = f2 + 1 :=
      ⟨f - 1, by simp only [List.length_cons] at hf; omega⟩
    obtain ⟨f3, rfl⟩ : ∃ f3, f2 = f3 + 1 :=
      ⟨f2 - 1, by simp only [List.length_cons] at hf; omega⟩
    cases kvs2 with
    | nil =>
      have hin : dumpsFields [(k, Json.str s)] ++ '}' :: rest
          = '"' :: (jsonEscChars k.data ++ '"' :: ':' :: ' ' :: (jstrChars s ++ '}' :: rest)) := by
        simp [dumpsFields, dumpsChars, jstrChars]
      rw [hin, parseFields.eq_def]
      simp only [skipWs_quote, parseStrChars_escape, skipWs_colon, parseValue_pad,
        parseValue_str, skipWs_rbrace]
    | cons kv2 kvs3 =>
      have hih := ih (fun kv hm => hall kv (List.mem_cons_of_mem _ hm))
        (by simp) (f3 + 1) (by simp only [List.length_cons] at hf ⊢; omega)
        rest
      have hin : dumpsFields ((k, Json.str s) :: kv2 :: kvs3) ++ '}' :: rest
          = '"' :: (jsonEscChars k.data ++ '"' :: ':' :: ' '
              :: (jstrChars s ++ ',' :: ' ' :: (dumpsFields (kv2 :: kvs3) ++ '}' :: rest))) := by
        simp [dumpsFields, dumpsChars, jstrChars]
      rw [hin, parseFields.eq_def]
      simp only [skipWs_quote, parseStrChars_escape, skipWs_colon, parseValue_pad,
        parseValue_str, skipWs_comma, parseFields_pad, hih]

theorem dumpsFields_cons_ne (kv : String × Json) (kvs : List (String × Json)) (h : kvs ≠ []) :
    dumpsFields (kv :: kvs)
      = jstrChars kv.1 ++ ':' :: ' ' :: dumpsChars kv.2 ++ ',' :: ' ' :: dumpsFields kvs := by
  obtain ⟨k, v⟩ := kv
  cases kvs with
  | nil => exact absurd rfl h
  | cons kv2 kvs2 => rfl

theorem parseValue_objstr (kvs : List (String × Json))
    (hall : ∀ kv ∈ kvs, ∃ s, kv.2 = Json.str s) (hne : kvs ≠ []) :
    ∀ (f : Nat), kvs.length + 2 ≤ f → ∀ (rest : List Char),
    parseValue f ('{' :: (dumpsFields kvs ++ '}' :: rest)) = some (.obj kvs, rest) := by
  intro f hf rest
  obtain ⟨f2, rfl⟩ : ∃ f2, f = f2 + 1 := ⟨f - 1, by omega⟩
  rw [parseValue_succ]
  simp only [skipWs_lbrace]
  obtain ⟨kv, kvs2, rfl⟩ : ∃ kv kvs2, kvs = kv :: kvs2 := by
    cases kvs with
    | nil => exact absurd rfl hne
    | cons a l => exact ⟨a, l, rfl⟩
  obtain ⟨k, v⟩ := kv
  have ht : ∃ tl, dumpsFields ((k, v) :: kvs2) ++ '}' :: rest = '"' :: tl := by
    cases kvs2 with
    | nil =>
      exact ⟨jsonEscChars k.data ++ '"' :: ':' :: ' ' :: (dumpsChars v ++ '}' :: rest),
        by simp [dumpsFields, jstrChars]⟩
    | cons a l =>
      exact ⟨jsonEscChars k.data ++ '"' :: ':' :: ' '
          :: (dumpsChars v ++ ',' :: ' ' :: (dumpsFields (a :: l) ++ '}' :: rest)),
        by simp [dumpsFields, jstrChars]⟩
  obtain ⟨tl, ht⟩ := ht
  rw [ht]
  simp only [skipWs_quote]
  show parseFields f2 ('"' :: tl) = _
  rw [← ht]
  exact parseFields_strvals ((k, v) :: kvs2) hall (by simp) f2
    (by simp only [List.length_cons] at hf ⊢; omega) rest

theorem parseFields_mixed : ∀ (pre : List (String × Json)) (dk : String)
    (dkvs : List (String × Json)),
    (∀ kv ∈ pre, ∃ s, kv.2 = Json.str s) →
    (∀ kv ∈ dkvs, ∃ s, kv.2 = Json.str s) → dkvs ≠ [] →
    ∀ (f : Nat), pre.length + dkvs.length + 4 ≤ f → ∀ (rest : List Char),
    parseFields f (dumpsFields (pre ++ [(dk, Json.obj dkvs)]) ++ '}' :: rest)
      = some (.obj (pre ++ [(dk, Json.obj dkvs)]), rest) := by
  intro pre
  induction pre with
  | nil =>
    intro dk dkvs _ hall2 hne2 f hf rest
    obtain ⟨f2, rfl⟩ : ∃ f2, f = f2 + 2 := ⟨f - 2, by omega⟩
    have hin : dumpsFields ([] ++ [(dk, Json.obj dkvs)]) ++ '}' :: rest
        = '"' :: (jsonEscChars dk.data ++ '"' :: ':' :: ' '
            :: ('{' :: (dumpsFields dkvs ++ '}' :: ('}' :: rest)))) := by
      simp [dumpsFields, dumpsChars, jstrChars]
    have hval := parseValue_objstr dkvs hall2 hne2 (f2 + 1) (by omega) ('}' :: rest)
    rw [hin, parseFields.eq_def]
    simp only [skipWs_quote, parseStrChars_escape, skipWs_colon, parseValue_pad, hval,
      skipWs_rbrace]
    rfl
  | cons kv pre2 ih =>
    intro dk dkvs hall hall2 hne2 f hf rest
    obtain ⟨k, v⟩ := kv
    obtain ⟨s, hv⟩ := hall (k, v) (List.mem_cons_self _ _)
    have hv2 : v = Json.str s := hv
    subst hv2
    obtain ⟨f2, rfl⟩ : ∃ f2, f = f2 + 2 :=
      ⟨f - 2, by simp only [List.length_cons] at hf; omega⟩
    have hih := ih dk dkvs (fun kv hm => hall kv (List.mem_cons_of_mem _ hm)) hall2 hne2
      (f2 + 1) (by simp only [List.length_cons] at hf ⊢; omega) rest
    have hin : dumpsFields (((k, Json.str s) :: pre2) ++ [(dk, Json.obj dkvs)]) ++ '}' :: rest
        = '"' :: (jsonEscChars k.data ++ '"' :: ':' :: ' '
            :: (jstrChars s ++ ',' :: ' '
                :: (dumpsFields (pre2 ++ [(dk, Json.obj dkvs)]) ++ '}' :: rest))) := by
      rw [List.cons_append, dumpsFields_cons_ne _ _ (by simp)]
      simp [jstrChars, dumpsChars]
    rw [hin, parseFields.eq_def]
    simp only [skipWs_quote, parseStrChars_escape, skipWs_colon, parseValue_pad,
      parseValue_str, skipWs_comma, parseFields_pad, hih]
    rfl

theorem dumpsChars_obj (kvs : List (String × Json)) :
    dumpsChars (Json.obj kvs) = '{' :: (dumpsFields kvs ++ '}' :: []) := by
  rw [dumpsChars.eq_def]
  rfl

theorem parseValue_objmixed (pre : List (String × Json)) (dk : String)
    (dkvs : List (String × Json))
    (hall : ∀ kv ∈ pre, ∃ s, kv.2 = Json.str s)
    (hall2 : ∀ kv ∈ dkvs, ∃ s, kv.2 = Json.str s)
    (hne : pre ≠ []) (hne2 : dkvs ≠ []) :
    ∀ (f : Nat), pre.length + dkvs.length + 5 ≤ f → ∀ (rest : List Char),
    parseValue f ('{' :: (dumpsFields (pre ++ [(dk, Json.obj dkvs)]) ++ '}' :: rest))
      = some (.obj (pre ++ [(dk, Json.obj dkvs)]), rest) := by
  intro f hf rest
  obtain ⟨f2, rfl⟩ : ∃ f2, f = f2 + 1 := ⟨f - 1, by omega⟩
  rw [parseValue_succ]
  simp only [skipWs_lbrace]
  obtain ⟨kv, pre2, rfl⟩ : ∃ kv pre2, pre = kv :: pre2 := by
    cases pre with
    | nil => exact absurd rfl hne
    | cons a l => exact ⟨a, l, rfl⟩
  obtain ⟨k, v⟩ := kv
  have ht : ∃ tl,
      dumpsFields (((k, v) :: pre2) ++ [(dk, Json.obj dkvs)]) ++ '}' :: rest = '"' :: tl := by
    refine ⟨jsonEscChars k.data ++ '"' :: ':' :: ' '
        :: (dumpsChars v ++ ',' :: ' '
            :: (dumpsFields (pre2 ++ [(dk, Json.obj dkvs)]) ++ '}' :: rest)), ?_⟩
    rw [List.cons_append, dumpsFields_cons_ne _ _ (by simp)]
    simp [jstrChars]
  obtain ⟨tl, ht⟩ := ht
  rw [ht]
  simp only [skipWs_quote]
  show parseFields f2 ('"' :: tl) = _
  rw [← ht]
  exact parseFields_mixed ((k, v) :: pre2) dk dkvs hall hall2 hne2 f2
    (by simp only [List.length_cons] at hf ⊢; omega) rest

theorem jsonLoads_of_parse (s : String) (j : Json)
    (h : parseValue (s.length + 1) s.data = some (j, [])) :
    jsonLoads s = some j := by
  simp only [jsonLoads, h]
  rfl

/-- C5: for every conversation id `c`, room id `r`, and printable text `t`
(and printable configuration/envelope fields), `json.loads` applied to the
envelope produced by `_build_inbound_event` succeeds, and the parsed
record's `data.conversationId` equals `c` and `data.text` equals `t`. -/
theorem c5_parse_build_roundtrip (connectorId source uid time c r t : String)
    (hpc : printableStr c = true) (hpr : printableStr r = true)
    (hpt : printableStr t = true) :
    ∃ j, jsonLoads (buildInboundEvent connectorId source uid time c r t) = some j
      ∧ ((getField j "data").bind (fun d => getField d "conversationId"))
          = some (.str c)
      ∧ ((getField j "data").bind (fun d => getField d "text")) = some (.str t) := by
  refine ⟨Json.obj ([("specversion", Json.str "1.0"),
      ("type", Json.str "assistant.message.inbound"),
      ("source", Json.str source), ("id", Json.str uid), ("time", Json.str time),
      ("datacontenttype", Json.str "application/json")]
    ++ [("data", Json.obj [("connectorId", Json.str connectorId),
          ("conversationId", Json.str c), ("roomId", Json.str r),
          ("text", Json.str t)])]), ?_, rfl, rfl⟩
  have hEJ : inboundJson connectorId source uid time c r t
      = Json.obj ([("specversion", Json.str "1.0"),
          ("type", Json.str "assistant.message.inbound"),
          ("source", Json.str source), ("id", Json.str uid), ("time", Json.str time),
          ("datacontenttype", Json.str "application/json")]
        ++ [("data", Json.obj [("connectorId", Json.str connectorId),
              ("conversationId", Json.str c), ("roomId", Json.str r),
              ("text", Json.str t)])]) := rfl
  have hdata : (buildInboundEvent connectorId source uid time c r t).data
      = '{' :: (dumpsFields ([("specversion", Json.str "1.0"),
          ("type", Json.str "assistant.message.inbound"),
          ("source", Json.str source), ("id", Json.str uid), ("time", Json.str time),
          ("datacontenttype", Json.str "application/json")]
        ++ [("data", Json.obj [("connectorId", Json.str connectorId),
              ("conversationId", Json.str c), ("roomId", Json.str r),
              ("text", Json.str t)])]) ++ '}' :: []) := by
    show dumpsChars (inboundJson connectorId source uid time c r t) = _
    rw [hEJ, dumpsChars_obj]
  have hsuf : dumpsFields ([("specversion", Json.str "1.0"),
          ("type", Json.str "assistant.message.inbound"),
          ("source", Json.str source), ("id", Json.str uid), ("time", Json.str time),
          ("datacontenttype", Json.str "application/json")]
        ++ [("data", Json.obj [("connectorId", Json.str connectorId),
              ("conversationId", Json.str c), ("roomId", Json.str r),
              ("text", Json.str t)])])
      = jstrChars "specversion" ++ ':' :: ' ' :: dumpsChars (Json.str "1.0") ++ ',' :: ' '
          :: dumpsFields ([("type", Json.str "assistant.message.inbound"),
              ("source", Json.str source), ("id", Json.str uid), ("time", Json.str time),
              ("datacontenttype", Json.str "application/json")]
            ++ [("data", Json.obj [("connectorId", Json.str connectorId),
                  ("conversationId", Json.str c), ("roomId", Json.str r),
                  ("text", Json.str t)])]) := by
    rw [List.cons_append, dumpsFields_cons_ne _ _ (by simp)]
  have hlen : 14 ≤ (buildInboundEvent connectorId source uid time c r t).length := by
    have h1 : (buildInboundEvent connectorId source uid time c r t).length
        = ((buildInboundEvent connectorId source uid time c r t).data).length := rfl
    have h13 : (jstrChars "specversion").length = 13 := rfl
    rw [h1, hdata, hsuf]
    simp only [List.length_cons, List.length_append, h13]
    omega
  apply jsonLoads_of_parse
  rw [hdata]
  apply parseValue_objmixed
  · intro kv hm
    simp only [List.mem_cons, List.not_mem_nil, or_false] at hm
    rcases hm with rfl | rfl | rfl | rfl | rfl | rfl <;> exact ⟨_, rfl⟩
  · intro kv hm
    simp only [List.mem_cons, List.not_mem_nil, or_false] at hm
    rcases hm with rfl | rfl | rfl | rfl <;> exact ⟨_, rfl⟩
  · simp
  · simp
  · simp only [List.length_cons, List.length_nil]
    omega

theorem c5_parse_build_roundtrip_witness :
    (printableStr "42" = true ∧ printableStr "room-1" = true
      ∧ printableStr "hello" = true)
    ∧ ∃ j, jsonLoads (buildInboundEvent "telegram" "cortex" "u-1" "t-0"
          "42" "room-1" "hello") = some j
        ∧ ((getField j "data").bind (fun d => getField d "conversationId"))
            = some (.str "42")
        ∧ ((getField j "data").bind (fun d => getField d "text"))
            = some (.str "hello") :=
  ⟨⟨by decide, by decide, by decide⟩,
    c5_parse_build_roundtrip "telegram" "cortex" "u-1" "t-0" "42" "room-1" "hello"
      (by decide) (by decide) (by decide)⟩

/-! ## Balance of the renderer output (C8) -/

theorem checkBal_append (fs1 fs2 : List Frag) : ∀ stk,
    checkBal (fs1 ++ fs2) stk = (checkBal fs1 stk).bind (fun s2 => checkBal fs2 s2) := by
  induction fs1 with
  | nil => intro stk; rfl
  | cons f fs ih =>
    intro stk
    cases f with
    | txt s => simpa [checkBal] using ih stk
    | tagOpen t => simpa [checkBal] using ih (t :: stk)
    | anchorOpen h => simpa [checkBal] using ih ("a" :: stk)
    | tagClose t suf =>
      cases stk with
      | nil => simp [checkBal]
      | cons t2 stk2 =>
        by_cases h : t = t2
        · simp [checkBal, h, ih stk2]
        · simp [checkBal, h]

theorem dyck_check {fs : List Frag} (hd : Dyck fs) : ∀ stk, checkBal fs stk = some stk := by
  induction hd with
  | nil => intro stk; rfl
  | txtCons s hfs ih => intro stk; simpa [checkBal] using ih stk
  | wrap t suf hi hr ihi ihr =>
    intro stk
    simp [checkBal, checkBal_append, ihi (t :: stk), ihr stk]
  | wrapA h suf hi hr ihi ihr =>
    intro stk
    simp [checkBal, checkBal_append, ihi ("a" :: stk), ihr stk]

theorem dyck_append {fs1 fs2 : List Frag} (h1 : Dyck fs1) (h2 : Dyck fs2) :
    Dyck (fs1 ++ fs2) := by
  induction h1 with
  | nil => simpa using h2
  | txtCons s hfs ih => exact Dyck.txtCons s ih
  | wrap t suf hi hr ihi ihr =>
    have := Dyck.wrap t suf hi ihr
    simpa [List.append_assoc] using this
  | wrapA h suf hi hr ihi ihr =>
    have := Dyck.wrapA h suf hi ihr
    simpa [List.append_assoc] using this

theorem startStep_out (st : CState) (t : String) (a : List (String × String)) :
    (startStep st t a).out = st.out ++ startOut t a st.stack := by
  simp only [startStep]
  split <;> rfl

theorem startStep_stack (st : CState) (t : String) (a : List (String × String)) :
    (startStep st t a).stack = t :: st.stack := by
  simp only [startStep]
  split <;> rfl

mutual
/-- The top of a nonempty garbage stack is always a void tag: the first
unclosed tag an element's children leave behind is a void element. -/
theorem garbageHeadNode : ∀ (n : HNode), goodNode n = true →
    ∀ x g2, garbageOfNode n = x :: g2 → x ∈ voidList := by
  intro n
  match n with
  | .text s => intro _ x g2 hg; simp [garbageOfNode] at hg
  | .voidTag t a =>
    intro h x g2 hg
    simp [garbageOfNode] at hg
    simp [goodNode] at h
    obtain ⟨rfl, _⟩ := hg
    simpa using h
  | .elem t a cs =>
    intro h x g2 hg
    simp only [goodNode, Bool.and_eq_true] at h
    obtain ⟨⟨⟨_, _⟩, _⟩, hgf⟩ := h
    simp only [garbageOfNode] at hg
    by_cases hc : garbageOfForest cs = []
    · rw [if_pos hc] at hg; exact absurd hg (by simp)
    · rw [if_neg hc] at hg
      obtain ⟨y, g3, hy⟩ : ∃ y g3, garbageOfForest cs = y :: g3 := by
        cases hcs : garbageOfForest cs with
        | nil => exact absurd hcs hc
        | cons y g3 => exact ⟨y, g3, rfl⟩
      rw [hy] at hg
      simp only [List.cons_append, List.cons.injEq] at hg
      obtain ⟨rfl, _⟩ := hg
      exact garbageHeadForest cs hgf y g3 hy
theorem garbageHeadForest : ∀ (ns : HForest), goodForest ns = true →
    ∀ x g2, garbageOfForest ns = x :: g2 → x ∈ voidList := by
  intro ns
  match ns with
  | .nil => intro _ x g2 hg; simp [garbageOfForest] at hg
  | .cons n ns2 =>
    intro h x g2 hg
    simp only [goodForest, Bool.and_eq_true] at h
    obtain ⟨hn, hns⟩ := h
    simp only [garbageOfForest] at hg
    cases hcs : garbageOfForest ns2 with
    | nil =>
      rw [hcs, List.nil_append] at hg
      exact garbageHeadNode n hn x g2 hg
    | cons y g3 =>
      rw [hcs, List.cons_append, List.cons.injEq] at hg
      obtain ⟨rfl, _⟩ := hg
      exact garbageHeadForest ns2 hns y g3 hcs
end

theorem startOut_void (t : String) (a : List (String × String)) (below : List String)
    (h : t ∈ voidList) :
    startOut t a below = if t = "br" then [Frag.txt "\n"] else [] := by
  fin_cases h <;> simp [startOut, headerTags]

theorem renderFrags_dyck (rows : List (List String)) :
    Dyck (renderFrags rows) ∧ (renderFrags rows).all fragOk = true := by
  cases rows with
  | nil => exact ⟨Dyck.txtCons "" Dyck.nil, rfl⟩
  | cons r rs =>
    refine ⟨?_, rfl⟩
    have h := Dyck.wrap "pre" "\n\n"
      (Dyck.txtCons (escapeHtml (String.intercalate "\n" (tableLines (r :: rs)))) Dyck.nil)
      Dyck.nil
    simpa [renderFrags] using h

theorem endStep_stack (st : CState) (t : String) :
    (endStep st t).stack = if st.stack.head? = some t then st.stack.tail else st.stack := by
  simp only [endStep]
  repeat' split
  all_goals rfl

theorem endStep_out_cell (st : CState) (t : String) (h : t = "th" ∨ t = "td") :
    (endStep st t).out = st.out := by
  simp only [endStep]
  rw [if_pos h]
  split <;> rfl

theorem endStep_out_tr (st : CState) :
    (endStep st "tr").out = st.out := by
  simp only [endStep]
  repeat' split
  all_goals first | rfl | simp_all

theorem endStep_out_tableEnd (st : CState) :
    (endStep st "table").out = st.out ++ renderFrags st.tableRows := by
  simp only [endStep]
  repeat' split
  all_goals first | rfl | simp_all

theorem endStep_out_other (st : CState) (t : String)
    (h1 : ¬(t = "th" ∨ t = "td")) (h2 : t ≠ "tr") (h3 : t ≠ "table") :
    (endStep st t).out
      = st.out ++ endOut t (if st.stack.head? = some t then st.stack.tail else st.stack) := by
  simp only [endStep]
  rw [if_neg h1, if_neg h2, if_neg h3]
  split <;> rfl

/-- The open fragments `handle_starttag` emits for a non-table tag pair up
with the close fragments `handle_endtag` emits, around any balanced,
accepted emission of the element's children. -/
theorem pairOut (t : String) (a : List (String × String)) (s0 s1 : List String)
    (hhref : t = "a" → (dictLookup a "href").isSome = true)
    (hpre : t = "code" → (("pre" ∈ s0) ↔ ("pre" ∈ s1)))
    (dc : List Frag) (hd : Dyck dc) (hok : dc.all fragOk = true) :
    Dyck (startOut t a s0 ++ dc ++ endOut t s1)
      ∧ (startOut t a s0 ++ dc ++ endOut t s1).all fragOk = true := by
  have wrapCase : ∀ (tg suf : String), fragOk (Frag.tagOpen tg) = true →
      fragOk (Frag.tagClose tg suf) = true →
      Dyck ([Frag.tagOpen tg] ++ dc ++ [Frag.tagClose tg suf])
        ∧ ([Frag.tagOpen tg] ++ dc ++ [Frag.tagClose tg suf]).all fragOk = true := by
    intro tg suf ho hc
    constructor
    · have h := Dyck.wrap tg suf hd Dyck.nil
      simpa using h
    · simp [List.all_append, ho, hc, hok]
  by_cases h1 : t ∈ headerTags
  · have hs : startOut t a s0 = [Frag.tagOpen "b"] := by simp [startOut, h1]
    have he : endOut t s1 = [Frag.tagClose "b" "\n\n"] := by simp [endOut, h1]
    rw [hs, he]
    exact wrapCase "b" "\n\n" (by decide) (by decide)
  by_cases h2 : t = "strong" ∨ t = "b"
  · have hs : startOut t a s0 = [Frag.tagOpen "b"] := by
      rcases h2 with rfl | rfl <;> simp [startOut, headerTags]
    have he : endOut t s1 = [Frag.tagClose "b" ""] := by
      rcases h2 with rfl | rfl <;> simp [endOut, headerTags]
    rw [hs, he]
    exact wrapCase "b" "" (by decide) (by decide)
  by_cases h3 : t = "em" ∨ t = "i"
  · have hs : startOut t a s0 = [Frag.tagOpen "i"] := by
      rcases h3 with rfl | rfl <;> simp [startOut, headerTags]
    have he : endOut t s1 = [Frag.tagClose "i" ""] := by
      rcases h3 with rfl | rfl <;> simp [endOut, headerTags]
    rw [hs, he]
    exact wrapCase "i" "" (by decide) (by decide)
  by_cases h4 : t = "u"
  · subst h4
    have hs : startOut "u" a s0 = [Frag.tagOpen "u"] := by simp [startOut, headerTags]
    have he : endOut "u" s1 = [Frag.tagClose "u" ""] := by simp [endOut, headerTags]
    rw [hs, he]
    exact wrapCase "u" "" (by decide) (by decide)
  by_cases h5 : t = "s" ∨ t = "del" ∨ t = "strike"
  · have hs : startOut t a s0 = [Frag.tagOpen "s"] := by
      rcases h5 with rfl | rfl | rfl <;> simp [startOut, headerTags]
    have he : endOut t s1 = [Frag.tagClose "s" ""] := by
      rcases h5 with rfl | rfl | rfl <;> simp [endOut, headerTags]
    rw [hs, he]
    exact wrapCase "s" "" (by decide) (by decide)
  by_cases h6 : t = "code"
  · subst h6
    have hpre2 := hpre rfl
    by_cases hp : "pre" ∈ s0
    · have hp1 : "pre" ∈ s1 := hpre2.mp hp
      have hs : startOut "code" a s0 = [] := by simp [startOut, headerTags, hp]
      have he : endOut "code" s1 = [] := by simp [endOut, headerTags, hp1]
      rw [hs, he]
      exact ⟨by simpa using hd, by simpa using hok⟩
    · have hp1 : ¬ "pre" ∈ s1 := fun h => hp (hpre2.mpr h)
      have hs : startOut "code" a s0 = [Frag.tagOpen "code"] := by
        simp [startOut, headerTags, hp]
      have he : endOut "code" s1 = [Frag.tagClose "code" ""] := by
        simp [endOut, headerTags, hp1]
      rw [hs, he]
      exact wrapCase "code" "" (by decide) (by decide)
  by_cases h7 : t = "pre"
  · subst h7
    have hs : startOut "pre" a s0 = [Frag.tagOpen "pre"] := by simp [startOut, headerTags]
    have he : endOut "pre" s1 = [Frag.tagClose "pre" "\n"] := by simp [endOut, headerTags]
    rw [hs, he]
    exact wrapCase "pre" "\n" (by decide) (by decide)
  by_cases h8 : t = "a"
  · subst h8
    have hh := hhref rfl
    have hs : startOut "a" a s0 = [Frag.anchorOpen ((dictLookup a "href").getD "")] := by
      simp [startOut, headerTags, hh]
    have he : endOut "a" s1 = [Frag.tagClose "a" ""] := by simp [endOut, headerTags]
    rw [hs, he]
    constructor
    · have h := Dyck.wrapA ((dictLookup a "href").getD "") "" hd Dyck.nil
      simpa using h
    · simp [List.all_append, hok, fragOk, acceptedTags]
  by_cases h9 : t = "blockquote"
  · subst h9
    have hs : startOut "blockquote" a s0 = [Frag.tagOpen "blockquote"] := by
      simp [startOut, headerTags]
    have he : endOut "blockquote" s1 = [Frag.tagClose "blockquote" "\n"] := by
      simp [endOut, headerTags]
    rw [hs, he]
    exact wrapCase "blockquote" "\n" (by decide) (by decide)
  by_cases h10 : t = "p"
  · subst h10
    have hs : startOut "p" a s0 = [] := by simp [startOut, headerTags]
    have he : endOut "p" s1 = [Frag.txt "\n\n"] := by simp [endOut, headerTags]
    rw [hs, he]
    constructor
    · simpa using dyck_append hd (Dyck.txtCons "\n\n" Dyck.nil)
    · simp [List.all_append, hok]
      rfl
  by_cases h11 : t = "br"
  · subst h11
    have hs : startOut "br" a s0 = [Frag.txt "\n"] := by simp [startOut, headerTags]
    have he : endOut "br" s1 = [] := by simp [endOut, headerTags]
    rw [hs, he]
    constructor
    · simpa using Dyck.txtCons "\n" hd
    · simp [List.all_append, hok]
      rfl
  · have hs : startOut t a s0 = [] := by
      simp [startOut, h1, h2, h3, h4, h5, h6, h7, h8, h9, h11]
    have he : endOut t s1 = [] := by
      simp [endOut, h1, h2, h3, h4, h5, h6, h7, h8, h9, h10]
    rw [hs, he]
    exact ⟨by simpa using hd, by simpa using hok⟩

theorem contains_iff (l : List String) (x : String) : l.contains x = true ↔ x ∈ l := by
  simp

mutual
/-- Converting one well-behaved node extends the output by a balanced,
accepted fragment block and pushes exactly its garbage onto the stack. -/
theorem balNode : ∀ (n : HNode), goodNode n = true → ∀ (st : CState),
    ∃ d, (csteps (eventsOfNode n) st).out = st.out ++ d ∧ Dyck d
      ∧ d.all fragOk = true
      ∧ (csteps (eventsOfNode n) st).stack = garbageOfNode n ++ st.stack := by
  intro n
  match n with
  | .text s =>
    intro _ st
    have hev : eventsOfNode (.text s) = [HEvent.textData s] := by simp [eventsOfNode]
    rw [hev]
    have hc : csteps [HEvent.textData s] st = dataStep st s := rfl
    rw [hc]
    have hg : garbageOfNode (.text s) = [] := by simp [garbageOfNode]
    rw [hg]
    by_cases hc1 : (st.inTable = true)
        ∧ (st.stack.head? = some "th" ∨ st.stack.head? = some "td")
    · refine ⟨[], ?_, Dyck.nil, rfl, ?_⟩
      · show (dataStep st s).out = st.out ++ []
        simp [dataStep, hc1]
      · show (dataStep st s).stack = [] ++ st.stack
        simp [dataStep, hc1]
    · by_cases hc2 : st.inTable = true
      · have hX : ¬ (st.stack.head? = some "th" ∨ st.stack.head? = some "td") :=
          fun hx => hc1 ⟨hc2, hx⟩
        refine ⟨[], ?_, Dyck.nil, rfl, ?_⟩
        · show (dataStep st s).out = st.out ++ []
          simp [dataStep, hc2, hX]
        · show (dataStep st s).stack = [] ++ st.stack
          simp [dataStep, hc2, hX]
      · refine ⟨[Frag.txt (escapeHtml s)], ?_, Dyck.txtCons _ Dyck.nil, rfl, ?_⟩
        · show (dataStep st s).out = st.out ++ [Frag.txt (escapeHtml s)]
          simp [dataStep, hc1, hc2]
        · show (dataStep st s).stack = [] ++ st.stack
          simp [dataStep, hc1, hc2]
  | .voidTag t a =>
    intro h st
    have hm : t ∈ voidList := by
      have h2 : voidList.contains t = true := by simpa [goodNode] using h
      exact (contains_iff _ _).mp h2
    have hev : eventsOfNode (.voidTag t a) = [HEvent.startTag t a] := by simp [eventsOfNode]
    rw [hev]
    have hc : csteps [HEvent.startTag t a] st = startStep st t a := rfl
    rw [hc]
    have hg : garbageOfNode (.voidTag t a) = [t] := by simp [garbageOfNode]
    rw [hg]
    refine ⟨startOut t a st.stack, startStep_out st t a, ?_, ?_,
      by rw [startStep_stack]; rfl⟩
    · rw [startOut_void t a st.stack hm]
      split
      · exact Dyck.txtCons _ Dyck.nil
      · exact Dyck.nil
    · rw [startOut_void t a st.stack hm]
      split <;> rfl
  | .elem t a cs =>
    intro h st
    have h2 := h
    simp only [goodNode, Bool.and_eq_true] at h2
    obtain ⟨⟨⟨hnv, hhref⟩, hcode⟩, hgf⟩ := h2
    have hnv2 : ¬ t ∈ voidList := by
      intro hmem
      rw [(contains_iff _ _).mpr hmem] at hnv
      exact absurd hnv (by decide)
    have hhref2 : t = "a" → (dictLookup a "href").isSome = true := by
      intro hta
      rw [hta] at hhref
      simpa using hhref
    have hev : eventsOfNode (.elem t a cs)
        = HEvent.startTag t a :: (eventsOfForest cs ++ [HEvent.endTag t]) := by
      simp [eventsOfNode]
    rw [hev]
    have hcs : csteps (HEvent.startTag t a :: (eventsOfForest cs ++ [HEvent.endTag t])) st
        = endStep (csteps (eventsOfForest cs) (startStep st t a)) t := by
      rw [show csteps (HEvent.startTag t a :: (eventsOfForest cs ++ [HEvent.endTag t])) st
            = csteps (eventsOfForest cs ++ [HEvent.endTag t]) (startStep st t a) from rfl]
      rw [csteps_append]
      rfl
    rw [hcs]
    obtain ⟨dc, hout, hdy, hok, hstk⟩ := balForest cs hgf (startStep st t a)
    rw [startStep_out] at hout
    rw [startStep_stack] at hstk
    set st2 := csteps (eventsOfForest cs) (startStep st t a) with hst2
    have key : ∃ sa, (if st2.stack.head? = some t then st2.stack.tail else st2.stack) = sa
        ∧ (t = "code" → (("pre" ∈ st.stack) ↔ ("pre" ∈ sa)))
        ∧ garbageOfNode (.elem t a cs) ++ st.stack = sa := by
      cases hgar : garbageOfForest cs with
      | nil =>
        rw [hgar] at hstk
        have hhead : st2.stack.head? = some t := by rw [hstk]; rfl
        refine ⟨st.stack, ?_, fun _ => Iff.rfl, ?_⟩
        · rw [if_pos hhead, hstk]
          rfl
        · simp [garbageOfNode, hgar]
      | cons g0 g3 =>
        rw [hgar] at hstk
        have hg0 : g0 ∈ voidList := garbageHeadForest cs hgf g0 g3 hgar
        have hg0t : ¬ g0 = t := fun he => hnv2 (he ▸ hg0)
        have hhead : st2.stack.head? = some g0 := by rw [hstk]; rfl
        have hnopop : ¬ (st2.stack.head? = some t) := by
          rw [hhead]
          simp [hg0t]
        refine ⟨st2.stack, if_neg hnopop, ?_, ?_⟩
        · intro hct
          subst hct
          have hcf := hcode
          rw [if_pos rfl] at hcf
          rw [hgar] at hcf
          have hnp : ¬ "pre" ∈ (g0 :: g3) := by
            intro hmm
            rw [(contains_iff _ _).mpr hmm] at hcf
            exact absurd hcf (by decide)
          obtain ⟨hnp1, hnp2⟩ : ¬ "pre" = g0 ∧ ¬ "pre" ∈ g3 := by
            simpa [not_or] using hnp
          rw [hstk]
          simp [List.mem_append, hnp1, hnp2]
        · rw [hstk]
          have hgel : garbageOfNode (.elem t a cs) = (g0 :: g3) ++ [t] := by
            simp [garbageOfNode, hgar]
          rw [hgel]
          simp [List.append_assoc]
    obtain ⟨sa, hsa, hpre, hgarb⟩ := key
    by_cases htd : t = "th" ∨ t = "td"
    · have hs0 : startOut t a st.stack = [] := by
        rcases htd with rfl | rfl <;> simp [startOut, headerTags]
      refine ⟨dc, ?_, hdy, hok, ?_⟩
      · rw [endStep_out_cell st2 t htd, hout, hs0]
        simp
      · rw [endStep_stack, hsa, ← hgarb]
    by_cases htr : t = "tr"
    · subst htr
      have hs0 : startOut "tr" a st.stack = [] := by simp [startOut, headerTags]
      refine ⟨dc, ?_, hdy, hok, ?_⟩
      · rw [endStep_out_tr st2, hout, hs0]
        simp
      · rw [endStep_stack, hsa, ← hgarb]
    by_cases hta : t = "table"
    · subst hta
      have hs0 : startOut "table" a st.stack = [] := by simp [startOut, headerTags]
      obtain ⟨hrd, hrok⟩ := renderFrags_dyck st2.tableRows
      refine ⟨dc ++ renderFrags st2.tableRows, ?_, dyck_append hdy hrd, ?_, ?_⟩
      · rw [endStep_out_tableEnd st2, hout, hs0]
        simp
      · simp [List.all_append, hok, hrok]
      · rw [endStep_stack, hsa, ← hgarb]
    · obtain ⟨hpd, hpok⟩ := pairOut t a st.stack sa hhref2 hpre dc hdy hok
      refine ⟨startOut t a st.stack ++ dc ++ endOut t sa, ?_, hpd, hpok, ?_⟩
      · rw [endStep_out_other st2 t htd htr hta, hout, hsa]
        simp [List.append_assoc]
      · rw [endStep_stack, hsa, ← hgarb]
theorem balForest : ∀ (ns : HForest), goodForest ns = true → ∀ (st : CState),
    ∃ d, (csteps (eventsOfForest ns) st).out = st.out ++ d ∧ Dyck d
      ∧ d.all fragOk = true
      ∧ (csteps (eventsOfForest ns) st).stack = garbageOfForest ns ++ st.stack := by
  intro ns
  match ns with
  | .nil =>
    intro _ st
    have hev : eventsOfForest .nil = [] := by simp [eventsOfForest]
    rw [hev]
    have hg : garbageOfForest .nil = [] := by simp [garbageOfForest]
    rw [hg]
    exact ⟨[], by simp [csteps], Dyck.nil, rfl, by simp [csteps]⟩
  | .cons n ns2 =>
    intro h st
    simp only [goodForest, Bool.and_eq_true] at h
    obtain ⟨hn, hns⟩ := h
    have hev : eventsOfForest (.cons n ns2) = eventsOfNode n ++ eventsOfForest ns2 := by
      simp [eventsOfForest]
    rw [hev, csteps_append]
    obtain ⟨d1, hout1, hdy1, hok1, hstk1⟩ := balNode n hn st
    obtain ⟨d2, hout2, hdy2, hok2, hstk2⟩ := balForest ns2 hns (csteps (eventsOfNode n) st)
    have hg : garbageOfForest (.cons n ns2) = garbageOfForest ns2 ++ garbageOfNode n := by
      simp [garbageOfForest]
    rw [hg]
    refine ⟨d1 ++ d2, ?_, dyck_append hdy1 hdy2, ?_, ?_⟩
    · rw [hout2, hout1]
      simp [List.append_assoc]
    · simp [List.all_append, hok1, hok2]
    · rw [hstk2, hstk1]
      simp [List.append_assoc]
end

/-- C8 (amended): for every well-nested rich-text input in which every `a`
element carries an `href` attribute and no `code` element's descendants
leave an unpopped `pre` behind on the converter's tag stack, the renderer
output contains only fragments from the accepted tag set and is balanced —
replaying it against an empty tag stack consumes every close tag against a
matching open tag and ends with the stack empty. -/
theorem c8_output_balanced (ns : HForest) (h : goodForest ns = true) :
    checkBal (convertEvents (eventsOfForest ns)).out [] = some []
      ∧ ((convertEvents (eventsOfForest ns)).out).all fragOk = true := by
  obtain ⟨d, hout, hdy, hok, _⟩ := balForest ns h initConv
  have hout2 : (convertEvents (eventsOfForest ns)).out = d := by
    show (csteps (eventsOfForest ns) initConv).out = d
    rw [hout]
    rfl
  rw [hout2]
  exact ⟨dyck_check hdy [], hok⟩

theorem c8_output_balanced_witness :
    goodForest (HForest.cons (HNode.elem "b" []
        (HForest.cons (HNode.text "hi") HForest.nil)) HForest.nil) = true
    ∧ (checkBal (convertEvents (eventsOfForest (HForest.cons (HNode.elem "b" []
          (HForest.cons (HNode.text "hi") HForest.nil)) HForest.nil))).out [] = some []
       ∧ ((convertEvents (eventsOfForest (HForest.cons (HNode.elem "b" []
          (HForest.cons (HNode.text "hi") HForest.nil)) HForest.nil))).out).all fragOk
            = true) :=
  ⟨by decide, c8_output_balanced (HForest.cons (HNode.elem "b" []
      (HForest.cons (HNode.text "hi") HForest.nil)) HForest.nil) (by decide)⟩

/-- The unamended claim fails: `<code>x<pre>y<br></pre>z</code>` is
well-nested HTML with a standard void element, yet the emitted stream is
unbalanced — the `<br>` stops `</pre>` from popping `pre`, so `</code>` is
suppressed by the `"pre" not in self._stack` test and the opened `<code>`
is never closed. -/
theorem c8_balance_counterexample :
    wellFormedForest (HForest.cons (HNode.elem "code" [] (HForest.cons (HNode.text "x")
        (HForest.cons (HNode.elem "pre" [] (HForest.cons (HNode.text "y")
          (HForest.cons (HNode.voidTag "br" []) HForest.nil)))
        (HForest.cons (HNode.text "z") HForest.nil)))) HForest.nil) = true
    ∧ checkBal (convertEvents (eventsOfForest
        (HForest.cons (HNode.elem "code" [] (HForest.cons (HNode.text "x")
          (HForest.cons (HNode.elem "pre" [] (HForest.cons (HNode.text "y")
            (HForest.cons (HNode.voidTag "br" []) HForest.nil)))
          (HForest.cons (HNode.text "z") HForest.nil)))) HForest.nil))).out []
        ≠ some [] := by
  decide
